import Mathlib

/-!
Formal model of the runtime payload schema interpreter implemented in
`include/schema_interpreter.h` (portable C99, single header).

Modelling conventions:
* A byte buffer is a `List ℕ`; every access goes through `getByte`, which
  reduces modulo 256, matching the `uint8_t` element type of C buffers.
* C `double` values are modelled as exact rationals (`ℚ`); decimal literals
  of the source become the corresponding rationals.  Every concrete result
  proved below coincides with the IEEE-754 binary64 evaluation of the C
  code (the intermediate values stay well inside the exactly-representable
  range, or round to the same integers).
* Machine integers are `ℕ`/`ℤ` with explicit reductions (`% 2^w`,
  two's-complement casts written out) at the points where the C code
  truncates or converts.
* IEEE-754 half/single/double bit patterns decode into the sum type
  `fval` (finite rational / signed infinity / NaN), mirroring the C code's
  explicit sign/exponent/fraction reconstruction.  The sign of a floating
  zero is not tracked (both C zeros map to the rational 0).
* Fixed-capacity C arrays (32 fields, 32 variables, 16 lookup entries)
  become lists; the capacity checks of the C code are kept where they are
  observable (`var_set`, `schema_add_field`, descriptor lookup parsing).
-/

namespace SchemaInterp

/-! ## Error codes (stable integers, `SCHEMA_ERR_*`) -/

def SCHEMA_OK : ℤ := 0
def SCHEMA_ERR_PARSE : ℤ := -1
def SCHEMA_ERR_BUFFER : ℤ := -2
def SCHEMA_ERR_OVERFLOW : ℤ := -3
def SCHEMA_ERR_TYPE : ℤ := -4
def SCHEMA_ERR_MATCH : ℤ := -5
def SCHEMA_ERR_UNSUPPORTED : ℤ := -6
def SCHEMA_ERR_MISSING : ℤ := -7

/-! ## Byte reading utilities (`read_u8` .. `read_f16_le`) -/

/-- Read one byte of a buffer; out-of-range indices yield 0 and every value
is reduced mod 256, reflecting the `uint8_t` element type. -/
def getByte (buf : List ℕ) (i : ℕ) : ℕ := buf.getD i 0 % 256

def read_u8 (buf : List ℕ) (p : ℕ) : ℕ := getByte buf p

def read_u16_be (buf : List ℕ) (p : ℕ) : ℕ :=
  getByte buf p * 256 + getByte buf (p + 1)

def read_u16_le (buf : List ℕ) (p : ℕ) : ℕ :=
  getByte buf (p + 1) * 256 + getByte buf p

def read_u24_be (buf : List ℕ) (p : ℕ) : ℕ :=
  getByte buf p * 65536 + getByte buf (p + 1) * 256 + getByte buf (p + 2)

def read_u24_le (buf : List ℕ) (p : ℕ) : ℕ :=
  getByte buf (p + 2) * 65536 + getByte buf (p + 1) * 256 + getByte buf p

def read_u32_be (buf : List ℕ) (p : ℕ) : ℕ :=
  getByte buf p * 16777216 + getByte buf (p + 1) * 65536 +
    getByte buf (p + 2) * 256 + getByte buf (p + 3)

def read_u32_le (buf : List ℕ) (p : ℕ) : ℕ :=
  getByte buf (p + 3) * 16777216 + getByte buf (p + 2) * 65536 +
    getByte buf (p + 1) * 256 + getByte buf p

def read_u64_be (buf : List ℕ) (p : ℕ) : ℕ :=
  read_u32_be buf p * 4294967296 + read_u32_be buf (p + 4)

def read_u64_le (buf : List ℕ) (p : ℕ) : ℕ :=
  read_u32_le buf (p + 4) * 4294967296 + read_u32_le buf p

/-- Two's-complement reinterpretation of a `w`-bit unsigned value
(the C casts `(int8_t)`, `(int16_t)`, ... applied to in-range values). -/
def toSigned (w : ℕ) (v : ℕ) : ℤ :=
  if v < 2 ^ (w - 1) then (v : ℤ) else (v : ℤ) - 2 ^ w

def read_s8 (buf : List ℕ) (p : ℕ) : ℤ := toSigned 8 (read_u8 buf p)

def read_s16_be (buf : List ℕ) (p : ℕ) : ℤ := toSigned 16 (read_u16_be buf p)

def read_s16_le (buf : List ℕ) (p : ℕ) : ℤ := toSigned 16 (read_u16_le buf p)

/-- `read_s24_be`: the C code ors in `0xFF000000` when bit 23 is set and then
casts the 32-bit value to `int32_t`. -/
def read_s24_be (buf : List ℕ) (p : ℕ) : ℤ :=
  let v := read_u24_be buf p
  let w := if v.testBit 23 then v ||| 0xFF000000 else v
  toSigned 32 w

def read_s24_le (buf : List ℕ) (p : ℕ) : ℤ :=
  let v := read_u24_le buf p
  let w := if v.testBit 23 then v ||| 0xFF000000 else v
  toSigned 32 w

def read_s32_be (buf : List ℕ) (p : ℕ) : ℤ := toSigned 32 (read_u32_be buf p)

def read_s32_le (buf : List ℕ) (p : ℕ) : ℤ := toSigned 32 (read_u32_le buf p)

def read_s64_be (buf : List ℕ) (p : ℕ) : ℤ := toSigned 64 (read_u64_be buf p)

def read_s64_le (buf : List ℕ) (p : ℕ) : ℤ := toSigned 64 (read_u64_le buf p)

/-- Value of an IEEE-754 floating decode: finite rational, signed infinity,
or NaN.  The C code returns `float`/`double`; both zeros map to `fin 0`. -/
inductive fval : Type
  | fin (q : ℚ)
  | inf (neg : Bool)
  | nan
deriving DecidableEq, Repr

/-- Core of `read_f16_be`: sign/exponent/fraction reconstruction of the
16-bit pattern `h`, exactly following the C branches (zero, subnormal,
infinity/NaN, normal).  All the C floating steps are exact in binary32,
so the rational value is the value the C code computes. -/
def f16_of_bits (h : ℕ) : fval :=
  let sign : ℕ := h / 2 ^ 15 % 2
  let exp : ℕ := h / 2 ^ 10 % 32
  let frac : ℕ := h % 1024
  if exp = 0 then
    if frac = 0 then .fin 0
    else
      let val : ℚ := (frac : ℚ) / 1024 * (1 / 2 ^ 14)
      .fin (if sign = 1 then -val else val)
  else if exp = 31 then
    if frac = 0 then .inf (sign = 1) else .nan
  else
    let val : ℚ := (1 + (frac : ℚ) / 1024) * 2 ^ ((exp : ℤ) - 15)
    .fin (if sign = 1 then -val else val)

def read_f16_be (buf : List ℕ) (p : ℕ) : fval := f16_of_bits (read_u16_be buf p)

/-- `read_f16_le` swaps the two bytes and delegates to the big-endian
reconstruction. -/
def read_f16_le (buf : List ℕ) (p : ℕ) : fval := f16_of_bits (read_u16_le buf p)

/-- IEEE-754 interpretation of a bit pattern with `ebits` exponent bits and
`mbits` fraction bits (the C code reads `f32`/`f64` by reinterpreting the
unsigned integer as a machine float; this is that interpretation). -/
def ieee_of_bits (ebits mbits : ℕ) (bits : ℕ) : fval :=
  let sign : ℕ := bits / 2 ^ (ebits + mbits) % 2
  let exp : ℕ := bits / 2 ^ mbits % 2 ^ ebits
  let frac : ℕ := bits % 2 ^ mbits
  let bias : ℤ := 2 ^ (ebits - 1) - 1
  if exp = 0 then
    let val : ℚ := (frac : ℚ) / 2 ^ mbits * 2 ^ (1 - bias)
    .fin (if sign = 1 then -val else val)
  else if exp = 2 ^ ebits - 1 then
    if frac = 0 then .inf (sign = 1) else .nan
  else
    let val : ℚ := (1 + (frac : ℚ) / 2 ^ mbits) * 2 ^ ((exp : ℤ) - bias)
    .fin (if sign = 1 then -val else val)

def read_f32_be (buf : List ℕ) (p : ℕ) : fval := ieee_of_bits 8 23 (read_u32_be buf p)

def read_f32_le (buf : List ℕ) (p : ℕ) : fval := ieee_of_bits 8 23 (read_u32_le buf p)

def read_f64_be (buf : List ℕ) (p : ℕ) : fval := ieee_of_bits 11 52 (read_u64_be buf p)

def read_f64_le (buf : List ℕ) (p : ℕ) : fval := ieee_of_bits 11 52 (read_u64_le buf p)

/-! ## Bitfield extraction -/

/-- `extract_bits`: `(byte >> start) & ((1 << width) - 1)`. -/
def extract_bits (byte start width : ℕ) : ℕ :=
  (byte >>> start) &&& ((1 <<< width) - 1)

/-! ## Schema data model (`field_type_t`, `field_def`, `schema_t`, ...) -/

inductive field_type : Type
  | u8 | u16 | u24 | u32 | u64
  | s8 | s16 | s24 | s32 | s64
  | f16 | f32 | f64
  | boolf | bits | skip
  | ascii | hex | base64 | bytes
  | object | tmatch | enum | byte_group
  | udec | sdec
  | unknown
deriving DecidableEq, Repr

inductive endian_t : Type
  | default_e | big | little
deriving DecidableEq, Repr

/-- One entry of a field's lookup table; the value is a byte string
(`char value[32]` in C, at most 31 payload characters). -/
structure lookup_entry : Type where
  key : ℤ
  value : List ℕ
deriving DecidableEq, Repr

/-- `case_def_t`.  `match_list` models the 8-slot `-1`-terminated array. -/
structure case_def : Type where
  match_value : ℤ
  match_list : List ℤ
  range_min : ℤ
  range_max : ℤ
  is_default : Bool
  field_start : ℕ
  field_count : ℕ
deriving DecidableEq, Repr

/-- `field_def` (names are abstract strings; the 32-char C limit is not
re-imposed since no property below depends on truncation). -/
structure field_def : Type where
  name : String
  type : field_type
  size : ℕ
  bit_start : ℕ
  bit_width : ℕ
  consume : Bool
  endian : endian_t
  mult : ℚ
  div : ℚ
  add : ℚ
  has_mult : Bool
  has_div : Bool
  has_add : Bool
  var_name : String
  lookup : List lookup_entry
  match_var : String
  cases : List case_def
  nested_start : ℤ
  nested_count : ℤ
deriving DecidableEq, Repr

/-- The all-zero `field_def` (C `{0}` initialisation). -/
def field_zero : field_def :=
  { name := "", type := .u8, size := 0, bit_start := 0, bit_width := 0,
    consume := false, endian := .default_e, mult := 0, div := 0, add := 0,
    has_mult := false, has_div := false, has_add := false, var_name := "",
    lookup := [], match_var := "", cases := [], nested_start := 0,
    nested_count := 0 }

instance : Inhabited field_def := ⟨field_zero⟩

structure schema_t : Type where
  name : String
  version : ℤ
  endian : endian_t
  fields : List field_def
deriving DecidableEq, Repr

/-- `schema_init`: zeroed schema with big-endian default. -/
def schema_init : schema_t :=
  { name := "", version := 0, endian := .big, fields := [] }

/-- `schema_add_field`: appends, silently dropping past 32 fields. -/
def schema_add_field (s : schema_t) (f : field_def) : schema_t :=
  if s.fields.length < 32 then { s with fields := s.fields ++ [f] } else s

/-- Decoded value (the `field_value_t` union, tagged by which member the
decoder wrote: `f64`, `i64`, `b`, `str`, `bytes`, or a floating decode). -/
inductive dvalue : Type
  | zero
  | num (q : ℚ)
  | ival (z : ℤ)
  | bval (b : Bool)
  | sval (s : List ℕ)
  | raw (bs : List ℕ)
  | fv (f : fval)
deriving DecidableEq, Repr

structure decoded_field : Type where
  name : String
  value : dvalue
  type : field_type
  valid : Bool
deriving DecidableEq, Repr

structure decode_result : Type where
  fields : List decoded_field
  bytes_consumed : ℕ
  error_code : ℤ
deriving DecidableEq, Repr

/-! ## Variable context (`var_set` / `var_get`) -/

/-- `var_set`: update the first entry with the given name, else append
while fewer than 32 (`SCHEMA_MAX_FIELDS`) variables are stored. -/
def var_set (ctx : List (String × ℤ)) (n : String) (v : ℤ) : List (String × ℤ) :=
  match ctx with
  | [] => [(n, v)]
  | e :: rest =>
      if e.1 = n then (n, v) :: rest
      else e :: var_set rest n v

/-- Capacity-checked entry point used by the decoder (the recursion above
appends unconditionally; the C code drops the append at 32 entries). -/
def var_set_c (ctx : List (String × ℤ)) (n : String) (v : ℤ) : List (String × ℤ) :=
  if (ctx.filter (fun e => e.1 = n)).length = 0 ∧ ctx.length ≥ 32 then ctx
  else var_set ctx n v

/-- `var_get`: value of the first matching entry, 0 when absent. -/
def var_get (ctx : List (String × ℤ)) (n : String) : ℤ :=
  match ctx with
  | [] => 0
  | e :: rest => if e.1 = n then e.2 else var_get rest n

/-! ## Single-field decode (`decode_field`) -/

/-- C `(int)` cast of an `int64_t`: wrap into `[-2^31, 2^31)`. -/
def wrap32 (z : ℤ) : ℤ := (z + 2 ^ 31) % 2 ^ 32 - 2 ^ 31

/-- C `(int64_t)` cast of a `uint64_t`. -/
def toInt64 (u : ℕ) : ℤ := if u < 2 ^ 63 then (u : ℤ) else (u : ℤ) - 2 ^ 64

/-- Byte codes of a Lean string (for the C string literals the decoder
produces, e.g. `"unknown(%d)"`). -/
def str_codes (s : String) : List ℕ := s.toList.map Char.toNat

/-- Copy `n` bytes of the buffer starting at `pos` (a `memcpy`). -/
def bytesAt (buf : List ℕ) (pos n : ℕ) : List ℕ :=
  (List.range n).map (fun i => getByte buf (pos + i))

/-- Scan a lookup table for `key == (int)raw` (the C comparison casts the
`int64_t` raw value down to `int`). -/
def lookup_find (tab : List lookup_entry) (raw : ℤ) : Option (List ℕ) :=
  match tab with
  | [] => none
  | e :: rest => if e.key = wrap32 raw then some e.value else lookup_find rest raw

/-- Floor of log₂ by halving, with explicit fuel (structural recursion,
so concrete instances evaluate inside the kernel). -/
def log2go : ℕ → ℕ → ℕ
  | 0, _ => 0
  | fuel + 1, n => if n ≤ 1 then 0 else log2go fuel (n / 2) + 1

/-- `⌊log₂ n⌋` for positive `n` (0 at 0). -/
def log2floor (n : ℕ) : ℕ := log2go n n

/-- Round a rational to the nearest integer, ties to even (the IEEE
default rounding used by the binary64 model below). -/
def rne (q : ℚ) : ℤ :=
  let f := ⌊q⌋
  let r := q - f
  if r < 1 / 2 then f
  else if 1 / 2 < r then f + 1
  else if f % 2 = 0 then f else f + 1

/-- `⌊log₂ q⌋` for a positive rational. -/
def ilog2q (q : ℚ) : ℤ :=
  let e0 : ℤ := (log2floor q.num.natAbs : ℤ) - (log2floor q.den : ℤ) - 1
  if (2 : ℚ) ^ (e0 + 2) ≤ q then e0 + 2
  else if (2 : ℚ) ^ (e0 + 1) ≤ q then e0 + 1
  else e0

/-- Value of rounding a positive rational to IEEE-754 binary64,
round-to-nearest-even: the representable grid around `a` has step
`2^(e-52)` where `e = ⌊log₂ a⌋`, clamped at the subnormal boundary.
(Overflow to infinity is not modelled; every use below stays far inside
the finite range.) -/
def rnd64pos (a : ℚ) : ℚ :=
  let e : ℤ := max (ilog2q a) (-1022)
  ((rne (a * (2 : ℚ) ^ ((52 : ℤ) - e)) : ℤ) : ℚ) * (2 : ℚ) ^ (e - 52)

/-- Binary64 rounding of a rational (value level).  This models the C
`double` conversions that can lose integer precision: the decoder's
`final_value = (double)raw_value` store and the sum
`raw_val + (raw_val >= 0 ? 0.5 : -0.5)` inside the encoder's rounding. -/
def rnd64 (q : ℚ) : ℚ :=
  if q = 0 then 0 else if q < 0 then -rnd64pos (-q) else rnd64pos q

/-- Modifier chain of the generic decode tail:
`value := raw × mult ÷ div + add`, each step only if flagged, and the
division also guarded by `div != 0`. -/
def applyMods (f : field_def) (x : ℚ) : ℚ :=
  let a := if f.has_mult then x * f.mult else x
  let b := if f.has_div ∧ f.div ≠ 0 then a / f.div else a
  if f.has_add then b + f.add else b

/-- Modifier chain of the `udec`/`sdec` cases: identical except that the
division is *not* guarded by `div != 0` (the C code would produce an
infinity there; `ℚ` division by zero yields 0 — no property below
instantiates that corner). -/
def applyMods_dec (f : field_def) (x : ℚ) : ℚ :=
  let a := if f.has_mult then x * f.mult else x
  let b := if f.has_div then a / f.div else a
  if f.has_add then b + f.add else b

/-- ASCII decimal digits of `(int)z` (for `snprintf("unknown(%d)", ...)`). -/
def int_digits (z : ℤ) : List ℕ :=
  if z < 0 then 45 :: (Nat.toDigits 10 z.natAbs).map Char.toNat
  else (Nat.toDigits 10 z.toNat).map Char.toNat

/-- The string `unknown(N)` produced for an enum value with no table entry. -/
def unknown_str (raw : ℤ) : List ℕ :=
  str_codes "unknown(" ++ int_digits (wrap32 raw) ++ str_codes ")"

/-- Uppercase hex digit character codes (the `hex_chars` table). -/
def hex_digit (n : ℕ) : ℕ := if n < 10 then 48 + n else 55 + n

/-- Base64 alphabet character code for a 6-bit index. -/
def b64_code (i : ℕ) : ℕ :=
  if i < 26 then 65 + i
  else if i < 52 then 97 + (i - 26)
  else if i < 62 then 48 + (i - 52)
  else if i = 62 then 43 else 47

/-- One pass of the C base64 loop: groups of 3 input bytes become 4 output
characters, `=`-padded (code 61), with the output capped below
`SCHEMA_MAX_NAME_LEN - 4 = 28` characters (at most 7 groups). -/
def b64_groups (buf : List ℕ) (pos in_len : ℕ) : ℕ → ℕ → List ℕ
  | _, 0 => []
  | b, fuel + 1 =>
      if b < in_len then
        let triple := getByte buf (pos + b) * 65536 +
          (if b + 1 < in_len then getByte buf (pos + b + 1) * 256 else 0) +
          (if b + 2 < in_len then getByte buf (pos + b + 2) else 0)
        b64_code (triple / 262144 % 64) ::
        b64_code (triple / 4096 % 64) ::
        (if b + 1 < in_len then b64_code (triple / 64 % 64) else 61) ::
        (if b + 2 < in_len then b64_code (triple % 64) else 61) ::
        b64_groups buf pos in_len (b + 3) fuel
      else []

/-- Result of `decode_field`: status code plus the mutated out-slot,
cursor, and variable context. -/
structure dfres : Type where
  rc : ℤ
  out : decoded_field
  pos : ℕ
  vars : List (String × ℤ)
deriving Repr

/-- Shared tail of the integer cases of `decode_field`: store the raw
value under the variable binding, apply modifiers, then the lookup table
(hit → string value; miss with a non-empty table → the raw `i64`;
no table → the modified `f64`).  The C stores
`final_value = (double)raw_value`, a conversion that rounds once the raw
magnitude exceeds 2^53, so the raw value enters the modifier chain
through `rnd64`. -/
def finish_int (field : field_def) (raw : ℤ) (pos' : ℕ)
    (out0 : decoded_field) (vars : List (String × ℤ)) : dfres :=
  let vars' := if field.var_name ≠ "" then var_set_c vars field.var_name raw else vars
  let final : ℚ := applyMods field (rnd64 (raw : ℚ))
  if field.lookup ≠ [] then
    match lookup_find field.lookup raw with
    | some s => ⟨SCHEMA_OK, { out0 with value := .sval s, valid := true }, pos', vars'⟩
    | none => ⟨SCHEMA_OK, { out0 with value := .ival raw, valid := true }, pos', vars'⟩
  else ⟨SCHEMA_OK, { out0 with value := .num final, valid := true }, pos', vars'⟩

/-- `decode_field`: decode one non-`match` field at cursor `pos`.
`len` is the buffer length; on failure the cursor and variables are
unchanged and the out-slot keeps `valid = false`. -/
def decode_field (field : field_def) (buf : List ℕ) (pos : ℕ)
    (vars : List (String × ℤ)) (default_endian : endian_t) : dfres :=
  let len := buf.length
  let endian := if field.endian ≠ endian_t.default_e then field.endian else default_endian
  let out0 : decoded_field := ⟨field.name, .zero, field.type, false⟩
  let errb : dfres := ⟨SCHEMA_ERR_BUFFER, out0, pos, vars⟩
  match field.type with
  | .u8 =>
      if pos + 1 > len then errb
      else finish_int field (read_u8 buf pos : ℤ) (pos + 1) out0 vars
  | .u16 =>
      if pos + 2 > len then errb
      else
        let raw : ℤ := if endian = .big then read_u16_be buf pos else read_u16_le buf pos
        finish_int field raw (pos + 2) out0 vars
  | .u24 =>
      if pos + 3 > len then errb
      else
        let raw : ℤ := if endian = .big then read_u24_be buf pos else read_u24_le buf pos
        finish_int field raw (pos + 3) out0 vars
  | .u32 =>
      if pos + 4 > len then errb
      else
        let raw : ℤ := if endian = .big then read_u32_be buf pos else read_u32_le buf pos
        finish_int field raw (pos + 4) out0 vars
  | .s8 =>
      if pos + 1 > len then errb
      else finish_int field (read_s8 buf pos) (pos + 1) out0 vars
  | .s16 =>
      if pos + 2 > len then errb
      else
        let raw := if endian = .big then read_s16_be buf pos else read_s16_le buf pos
        finish_int field raw (pos + 2) out0 vars
  | .s24 =>
      if pos + 3 > len then errb
      else
        let raw := if endian = .big then read_s24_be buf pos else read_s24_le buf pos
        finish_int field raw (pos + 3) out0 vars
  | .s32 =>
      if pos + 4 > len then errb
      else
        let raw := if endian = .big then read_s32_be buf pos else read_s32_le buf pos
        finish_int field raw (pos + 4) out0 vars
  | .u64 =>
      -- the C u64 case applies modifiers inline and stores the f64 result
      -- (the `(double)` conversion of the raw u64 rounds beyond 2^53, hence
      -- `rnd64`); the variable receives the `(int64_t)` cast of the raw u64
      if pos + 8 > len then errb
      else
        let u := if endian = .big then read_u64_be buf pos else read_u64_le buf pos
        let final := applyMods field (rnd64 (u : ℚ))
        let vars' := if field.var_name ≠ "" then var_set_c vars field.var_name (toInt64 u) else vars
        ⟨SCHEMA_OK, { out0 with value := .num final, valid := true }, pos + 8, vars'⟩
  | .s64 =>
      if pos + 8 > len then errb
      else
        let raw := if endian = .big then read_s64_be buf pos else read_s64_le buf pos
        finish_int field raw (pos + 8) out0 vars
  | .f16 =>
      if pos + 2 > len then errb
      else
        let v := if endian = .big then read_f16_be buf pos else read_f16_le buf pos
        ⟨SCHEMA_OK, { out0 with value := .fv v, valid := true }, pos + 2, vars⟩
  | .f32 =>
      if pos + 4 > len then errb
      else
        let v := if endian = .big then read_f32_be buf pos else read_f32_le buf pos
        ⟨SCHEMA_OK, { out0 with value := .fv v, valid := true }, pos + 4, vars⟩
  | .f64 =>
      if pos + 8 > len then errb
      else
        let v := if endian = .big then read_f64_be buf pos else read_f64_le buf pos
        ⟨SCHEMA_OK, { out0 with value := .fv v, valid := true }, pos + 8, vars⟩
  | .boolf =>
      if pos + 1 > len then errb
      else
        let b := (getByte buf pos >>> field.bit_start) &&& 1 ≠ 0
        let pos' := if field.consume then pos + 1 else pos
        let vars' := if field.var_name ≠ "" then
          var_set_c vars field.var_name (if b then 1 else 0) else vars
        ⟨SCHEMA_OK, { out0 with value := .bval b, valid := true }, pos', vars'⟩
  | .bits =>
      -- bounds check is `*pos >= len` (one byte needed)
      if pos ≥ len then errb
      else
        let raw : ℤ := extract_bits (getByte buf pos) field.bit_start field.bit_width
        let pos' := if field.consume then pos + 1 else pos
        finish_int field raw pos' out0 vars
  | .skip =>
      -- no bounds check; advance by size (1 when size = 0); stays invalid
      ⟨SCHEMA_OK, out0, pos + (if field.size = 0 then 1 else field.size), vars⟩
  | .ascii =>
      if pos + field.size > len then errb
      else
        let n := if field.size < 32 then field.size else 31
        ⟨SCHEMA_OK, { out0 with value := .raw (bytesAt buf pos n), valid := true },
          pos + field.size, vars⟩
  | .hex =>
      if pos + field.size > len then errb
      else
        let hex_len := if field.size < 16 then field.size else 15
        let chars := (List.range hex_len).flatMap (fun h =>
          [hex_digit (getByte buf (pos + h) >>> 4 &&& 15),
           hex_digit (getByte buf (pos + h) &&& 15)])
        ⟨SCHEMA_OK, { out0 with value := .sval chars, valid := true },
          pos + field.size, vars⟩
  | .base64 =>
      if pos + field.size > len then errb
      else
        let chars := b64_groups buf pos field.size 0 7
        ⟨SCHEMA_OK, { out0 with value := .sval chars, valid := true },
          pos + field.size, vars⟩
  | .bytes =>
      if pos + field.size > len then errb
      else
        let copy_len := if field.size < 32 then field.size else 32
        ⟨SCHEMA_OK, { out0 with value := .raw (bytesAt buf pos copy_len), valid := true },
          pos + field.size, vars⟩
  | .enum =>
      -- bounds check uses `field.size`, the read uses `esize` (1 when 0)
      if pos + field.size > len then errb
      else
        let esize := if field.size = 0 then 1 else field.size
        let raw : ℤ :=
          if esize = 1 then read_u8 buf pos
          else if esize = 2 then
            (if endian = .big then read_u16_be buf pos else read_u16_le buf pos)
          else read_u8 buf pos
        if field.lookup ≠ [] then
          let vars' := if field.var_name ≠ "" then var_set_c vars field.var_name raw else vars
          match lookup_find field.lookup raw with
          | some s =>
              ⟨SCHEMA_OK, { out0 with value := .sval s, valid := true }, pos + esize, vars'⟩
          | none =>
              ⟨SCHEMA_OK, { out0 with value := .sval (unknown_str raw), valid := true },
                pos + esize, vars'⟩
        else finish_int field raw (pos + esize) out0 vars
  | .udec =>
      if pos + 1 > len then errb
      else
        let byte := getByte buf pos
        let final := applyMods_dec field (((byte >>> 4 : ℕ) : ℚ) + ((byte &&& 15 : ℕ) : ℚ) * (1 / 10))
        ⟨SCHEMA_OK, { out0 with value := .num final, valid := true }, pos + 1, vars⟩
  | .sdec =>
      if pos + 1 > len then errb
      else
        let byte := getByte buf pos
        let whole : ℤ := if byte >>> 4 ≥ 8 then (byte >>> 4 : ℤ) - 16 else (byte >>> 4 : ℤ)
        let final := applyMods_dec field ((whole : ℚ) + ((byte &&& 15 : ℕ) : ℚ) * (1 / 10))
        ⟨SCHEMA_OK, { out0 with value := .num final, valid := true }, pos + 1, vars⟩
  | _ => ⟨SCHEMA_ERR_TYPE, out0, pos, vars⟩

/-! ## Main decode (`schema_decode`) -/

/-- Leading `$` of a match-variable name is accepted and stripped
(`if (var_name[0] == '$') var_name++`). -/
def strip_dollar (s : String) : String :=
  match s.data with
  | '$' :: rest => String.mk rest
  | _ => s

/-- Case match test, in the C order: default marker, single value
(compared through the `(int)` cast), proper range (`min != max`), then the
`-1`-terminated value list (at most 8 entries, each compared through the
`(int)` cast). -/
def case_matches (cs : case_def) (v : ℤ) : Bool :=
  if cs.is_default then true
  else if cs.match_value = wrap32 v then true
  else if cs.range_min ≠ cs.range_max then decide (cs.range_min ≤ v ∧ v ≤ cs.range_max)
  else ((cs.match_list.take 8).takeWhile (fun x => decide (x ≠ -1))).any
    (fun x => decide (x = wrap32 v))

/-- First case (declaration order) matching the variable value. -/
def find_case (cases : List case_def) (v : ℤ) : Option case_def :=
  cases.find? (fun cs => case_matches cs v)

/-- Fields emitted by the regular (non-match) path: `valid`, non-empty
name, name not beginning with `_`. -/
def emit_regular (f : field_def) (out : decoded_field) : Bool :=
  out.valid && decide (f.name ≠ "") && decide (f.name.front ≠ '_')

/-- Decode the selected case's slice `[field_start, field_start+field_count)`
of the schema's field list.  Indices past the field list stop the slice;
a `valid` out-slot is emitted with *no* name check; errors abort.
Returns `(rc, pos, vars, acc)`. -/
def decode_case_fields (schema : schema_t) (buf : List ℕ) :
    ℕ → ℕ → ℕ → List (String × ℤ) → List decoded_field →
    ℤ × ℕ × List (String × ℤ) × List decoded_field
  | 0, _, pos, vars, acc => (SCHEMA_OK, pos, vars, acc)
  | cnt + 1, idx, pos, vars, acc =>
      if idx ≥ schema.fields.length then (SCHEMA_OK, pos, vars, acc)
      else
        let r := decode_field (schema.fields.getD idx field_zero) buf pos vars schema.endian
        if r.rc ≠ SCHEMA_OK then (r.rc, r.pos, r.vars, acc)
        else decode_case_fields schema buf cnt (idx + 1) r.pos r.vars
          (acc ++ if r.out.valid then [r.out] else [])

/-- Main decode loop over the schema's field list, by index `i` with fuel
`n = field_count - i`.  On error the result keeps the fields emitted so
far, the error code, and `bytes_consumed = 0` (the C code only writes
`bytes_consumed` on the success path). -/
def schema_decode_go (schema : schema_t) (buf : List ℕ) :
    ℕ → ℕ → ℕ → List (String × ℤ) → List decoded_field → decode_result
  | 0, _, pos, _, acc => ⟨acc, pos, SCHEMA_OK⟩
  | n + 1, i, pos, vars, acc =>
      let field := schema.fields.getD i field_zero
      if field.type = field_type.tmatch then
        let mval := var_get vars (strip_dollar field.match_var)
        match find_case field.cases mval with
        | none => schema_decode_go schema buf n (i + 1) pos vars acc
        | some cs =>
            let r := decode_case_fields schema buf cs.field_count cs.field_start pos vars acc
            if r.1 ≠ SCHEMA_OK then ⟨r.2.2.2, 0, r.1⟩
            else schema_decode_go schema buf n (i + 1) r.2.1 r.2.2.1 r.2.2.2
      else
        let r := decode_field field buf pos vars schema.endian
        if r.rc ≠ SCHEMA_OK then ⟨acc, 0, r.rc⟩
        else schema_decode_go schema buf n (i + 1) r.pos r.vars
          (acc ++ if emit_regular field r.out then [r.out] else [])

/-- `schema_decode`: walk the field list from an empty variable context. -/
def schema_decode (schema : schema_t) (buf : List ℕ) : decode_result :=
  schema_decode_go schema buf schema.fields.length 0 0 [] []

/-! ## Encoder (`schema_encode`) -/

/-- Encode result: 256-byte output buffer, length, status.  On error the
length stays 0 (only the success path writes it). -/
structure encode_result : Type where
  data : List ℕ
  len : ℕ
  error_code : ℤ
deriving DecidableEq, Repr

/-- The encoder reads the `f64` member of each input union, so an input
map is a name → rational list (inputs added by `encode_inputs_add_double`;
integer-slot inputs would be reinterpreted garbage and are not modelled). -/
def find_input (inputs : List (String × ℚ)) (n : String) : Option ℚ :=
  (inputs.find? (fun e => decide (e.1 = n))).map (fun e => e.2)

/-- C `(int64_t)` cast of a double: truncation toward zero. -/
def c_trunc (q : ℚ) : ℤ := if 0 ≤ q then ⌊q⌋ else -⌊-q⌋

/-- The encoder's rounding step:
`(int64_t)(raw + (raw >= 0 ? 0.5 : -0.5))`.  The sum is a binary64
addition, so it passes through `rnd64` before the truncating cast: for
integer `raw` with `|raw| < 2^52` the sum is exact and this is
round-half-away-from-zero, but from 2^52 on the addition itself rounds
ties-to-even (e.g. 2^52 + 1 becomes 2^52 + 2). -/
def encode_round (q : ℚ) : ℤ :=
  c_trunc (rnd64 (if 0 ≤ q then q + 1 / 2 else q - 1 / 2))

/-- C `(uint64_t)` cast of an `int64_t` value. -/
def uint64_of (z : ℤ) : ℕ := (z % 2 ^ 64).toNat

/-- The byte sequence `write_int` stores: `size` bytes of the unsigned
reinterpretation, most significant first when big-endian. -/
def int_bytes (val : ℤ) (size : ℕ) (be : Bool) : List ℕ :=
  (List.range size).map (fun i =>
    uint64_of val / 2 ^ (8 * (if be then size - 1 - i else i)) % 256)

/-- Store a byte list into the buffer at `pos` (sequential `buf[pos+i] = b`;
out-of-range stores are dropped, where the C code would overrun). -/
def writeBytes : List ℕ → ℕ → List ℕ → List ℕ
  | buf, _, [] => buf
  | buf, pos, b :: bs => writeBytes (buf.set pos b) (pos + 1) bs

/-- `write_int`: write `size` bytes of `val` at the cursor, advance it. -/
def write_int (buf : List ℕ) (pos : ℕ) (val : ℤ) (size : ℕ) (e : endian_t) :
    List ℕ × ℕ :=
  (writeBytes buf pos (int_bytes val size (e = .big)), pos + size)

/-- IEEE-754 bit pattern of the nearest (round-to-nearest-even) float with
`ebits` exponent bits and `mbits` fraction bits; used to model the C
conversions `(float)raw_val` / the bit pattern of the `double` in the
encoder's `f32`/`f64` cases.  Overflow becomes infinity. -/
def float_bits (ebits mbits : ℕ) (q : ℚ) : ℕ :=
  if q = 0 then 0
  else
    let s : ℕ := if q < 0 then 1 else 0
    let a : ℚ := |q|
    let bias : ℤ := 2 ^ (ebits - 1) - 1
    let e : ℤ := max (ilog2q a) (1 - bias)
    let m : ℤ := rne (a * (2 : ℚ) ^ ((mbits : ℤ) - e))
    let e1 : ℤ := if m = 2 ^ (mbits + 1) then e + 1 else e
    let m1 : ℤ := if m = 2 ^ (mbits + 1) then 2 ^ mbits else m
    if m1 < 2 ^ mbits then s * 2 ^ (ebits + mbits) + m1.toNat
    else if e1 > bias then s * 2 ^ (ebits + mbits) + (2 ^ ebits - 1) * 2 ^ mbits
    else s * 2 ^ (ebits + mbits) + (e1 + bias).toNat * 2 ^ mbits + (m1 - 2 ^ mbits).toNat

/-- Result of `encode_field`: status, buffer, cursor. -/
structure efres : Type where
  rc : ℤ
  buf : List ℕ
  pos : ℕ
deriving Repr

/-- `encode_field`: encode one field from the input map.  A missing input
for a non-`skip` field returns `SCHEMA_ERR_PARSE` (the C line is commented
"Missing input" but returns the parse error code, not `SCHEMA_ERR_MISSING`).
The inverse modifier chain is `((value - add) / mult) * div`, each step
only if flagged (the division also guarded by `mult != 0`), followed by
round-half-away-from-zero. -/
def encode_field (field : field_def) (inputs : List (String × ℚ)) (buf : List ℕ)
    (pos : ℕ) (schema_endian : endian_t) : efres :=
  let input := find_input inputs field.name
  if input = none ∧ field.type ≠ field_type.skip then ⟨SCHEMA_ERR_PARSE, buf, pos⟩
  else
    let v0 : ℚ := input.getD 0
    let v1 := if field.has_add then v0 - field.add else v0
    let v2 := if field.has_mult ∧ field.mult ≠ 0 then v1 / field.mult else v1
    let raw_val := if field.has_div then v2 * field.div else v2
    let int_val := encode_round raw_val
    let endian := if field.endian ≠ endian_t.default_e then field.endian else schema_endian
    match field.type with
    | .u8 | .s8 =>
        ⟨SCHEMA_OK, buf.set pos (int_val % 256).toNat, pos + 1⟩
    | .u16 | .s16 =>
        let w := write_int buf pos int_val 2 endian
        ⟨SCHEMA_OK, w.1, w.2⟩
    | .u24 | .s24 =>
        let w := write_int buf pos int_val 3 endian
        ⟨SCHEMA_OK, w.1, w.2⟩
    | .u32 | .s32 =>
        let w := write_int buf pos int_val 4 endian
        ⟨SCHEMA_OK, w.1, w.2⟩
    | .u64 | .s64 =>
        let w := write_int buf pos int_val 8 endian
        ⟨SCHEMA_OK, w.1, w.2⟩
    | .f32 =>
        let w := write_int buf pos (float_bits 8 23 raw_val : ℤ) 4 endian
        ⟨SCHEMA_OK, w.1, w.2⟩
    | .f64 =>
        let w := write_int buf pos (float_bits 11 52 raw_val : ℤ) 8 endian
        ⟨SCHEMA_OK, w.1, w.2⟩
    | .boolf =>
        ⟨SCHEMA_OK, buf.set pos (if int_val ≠ 0 then 1 else 0), pos + 1⟩
    | .bits =>
        let byte_val := getByte buf pos
        let mask := (((1 <<< field.bit_width) - 1) <<< field.bit_start) % 256
        let newbyte := ((byte_val &&& (255 - mask)) |||
          ((int_val % (2 ^ field.bit_width : ℤ)).toNat <<< field.bit_start)) % 256
        ⟨SCHEMA_OK, buf.set pos newbyte, if field.consume then pos + 1 else pos⟩
    | .skip =>
        ⟨SCHEMA_OK, writeBytes buf pos (List.replicate field.size 0), pos + field.size⟩
    | .udec =>
        let whole := c_trunc raw_val
        let frac := c_trunc ((raw_val - whole) * 10 + 1 / 2)
        let wc := if whole > 9 then 9 else if whole < 0 then 0 else whole
        let fc := if frac > 9 then 9 else frac
        ⟨SCHEMA_OK, buf.set pos ((wc.toNat <<< 4) ||| (fc % 16).toNat), pos + 1⟩
    | .sdec =>
        let whole0 := c_trunc raw_val
        let whole := if raw_val < 0 ∧ raw_val - whole0 ≠ 0 then whole0 - 1 else whole0
        let frac := c_trunc ((raw_val - whole) * 10 + 1 / 2)
        let wc := if whole < -8 then (-8 : ℤ) else if whole > 7 then 7 else whole
        let fc := if frac > 9 then 9 else frac
        ⟨SCHEMA_OK, buf.set pos (((wc % 16).toNat <<< 4) ||| (fc % 16).toNat), pos + 1⟩
    | _ => ⟨SCHEMA_ERR_UNSUPPORTED, buf, pos⟩

/-- Encoder loop: fields whose name begins with `_` and `match` fields are
skipped; the first error aborts. -/
def encode_loop (schema : schema_t) (inputs : List (String × ℚ)) :
    ℕ → ℕ → List ℕ → ℕ → ℤ × List ℕ × ℕ
  | 0, _, buf, pos => (SCHEMA_OK, buf, pos)
  | n + 1, i, buf, pos =>
      let field := schema.fields.getD i field_zero
      if field.name.front = '_' ∨ field.type = field_type.tmatch then
        encode_loop schema inputs n (i + 1) buf pos
      else
        let r := encode_field field inputs buf pos schema.endian
        if r.rc ≠ SCHEMA_OK then (r.rc, r.buf, r.pos)
        else encode_loop schema inputs n (i + 1) r.buf r.pos

/-- `schema_encode`: zeroed 256-byte output buffer, then the field loop.
On error the result keeps `len = 0` and the partially written buffer. -/
def schema_encode (schema : schema_t) (inputs : List (String × ℚ)) : encode_result :=
  let r := encode_loop schema inputs schema.fields.length 0 (List.replicate 256 0) 0
  if r.1 ≠ SCHEMA_OK then ⟨r.2.1, 0, r.1⟩
  else ⟨r.2.1, r.2.2, SCHEMA_OK⟩

/-! ## Binary schema loading (`schema_load_binary`) -/

/-- `binary_type_to_field_type`: 3-bit type-class code plus size; every
unmatched combination falls through to `u8` (note the `skip` code 8 can
never appear, the class field is masked to 3 bits, and the `enum` code 5
has no case either). -/
def binary_type_to_field_type (type_code size : ℕ) : field_type :=
  if type_code = 0 then
    if size = 1 then .u8 else if size = 2 then .u16 else if size = 3 then .u24
    else if size = 4 then .u32 else if size = 8 then .u64 else .u8
  else if type_code = 1 then
    if size = 1 then .s8 else if size = 2 then .s16 else if size = 3 then .s24
    else if size = 4 then .s32 else if size = 8 then .s64 else .u8
  else if type_code = 2 then
    if size = 2 then .f16 else if size = 4 then .f32 else .f64
  else if type_code = 4 then .boolf
  else if type_code = 6 then .bits
  else if type_code = 8 then .skip
  else if type_code = 3 then .bytes
  else if type_code = 7 then .tmatch
  else .u8

/-- `binary_exp_to_mult`: 0 → 1, the three binary specials, otherwise a
signed power of ten. -/
def binary_exp_to_mult (e : ℕ) : ℚ :=
  if e = 0 then 1
  else if e = 0x81 then 1 / 2
  else if e = 0x82 then 1 / 4
  else if e = 0x84 then 1 / 16
  else
    let se : ℤ := if e > 127 then (e : ℤ) - 256 else (e : ℤ)
    (10 : ℚ) ^ se

/-- Lowercase hex digit character. -/
def hex_digit_lc (n : ℕ) : Char :=
  Char.ofNat (if n % 16 < 10 then 48 + n % 16 else 87 + n % 16)

/-- `ipso_to_name`: well-known identifiers resolve to canonical names,
anything else becomes `field_XXXX` with the 4-digit lowercase hex id. -/
def ipso_to_name (id : ℕ) : String :=
  if id = 3303 then "temperature"
  else if id = 3304 then "humidity"
  else if id = 3315 then "pressure"
  else if id = 3316 then "voltage"
  else if id = 3317 then "current"
  else if id = 3328 then "power"
  else if id = 3330 then "distance"
  else if id = 3301 then "illuminance"
  else "field_" ++ String.mk
    [hex_digit_lc (id / 4096), hex_digit_lc (id / 256), hex_digit_lc (id / 16),
     hex_digit_lc id]

/-- Lookup-table parsing of one descriptor record: up to
`min lookup_count 16` entries of `(key, strlen, bytes)`, stopping at the
first entry that runs past the buffer.  Returns the entries read and the
final offset. -/
def load_lookup (data : List ℕ) : ℕ → ℕ → List lookup_entry →
    List lookup_entry × ℕ
  | 0, offset, acc => (acc, offset)
  | j + 1, offset, acc =>
      if offset ≥ data.length then (acc, offset)
      else
        let key := getByte data offset
        let o1 := offset + 1
        if o1 ≥ data.length then (acc, o1)
        else
          let str_len := getByte data o1
          let o2 := o1 + 1
          if o2 + str_len > data.length then (acc, o2)
          else
            let copy_len := if str_len < 32 then str_len else 31
            load_lookup data j (o2 + str_len)
              (acc ++ [⟨(key : ℤ), bytesAt data o2 copy_len⟩])

/-- Per-field record parser, with fuel = remaining declared fields.
A record truncated in its mandatory four bytes (type, multiplier
exponent, 2-byte id) ends the loop without adding the field; truncation
in the trailing parts (bitfield byte, addend, lookup entries) still adds
the field with the data available — exactly the C control flow. -/
def load_field_loop (data : List ℕ) : ℕ → ℕ → schema_t → schema_t
  | 0, _, s => s
  | n + 1, offset, s =>
      if offset ≥ data.length then s
      else
        let type_byte := getByte data offset
        let o1 := offset + 1
        let has_lookup := type_byte &&& 0x80 ≠ 0
        let type_code := (type_byte >>> 4) &&& 0x07
        let size := type_byte &&& 0x0F
        if o1 ≥ data.length then s
        else
          let mult_exp := getByte data o1
          let o2 := o1 + 1
          let mult := binary_exp_to_mult mult_exp
          if o2 + 1 ≥ data.length then s
          else
            let field_id := getByte data o2 + getByte data (o2 + 1) * 256
            let o3 := o2 + 2
            let f0 : field_def :=
              { field_zero with
                type := binary_type_to_field_type type_code size,
                size := size,
                mult := if mult ≠ 1 then mult else 0,
                has_mult := mult ≠ 1,
                name := ipso_to_name field_id }
            -- bitfield extra byte (plus optional 0x01 consume marker)
            let bfr : field_def × ℕ :=
              if type_code = 6 ∧ o3 < data.length then
                let bf := getByte data o3
                let f1 := { f0 with bit_start := (bf >>> 4) &&& 0x0F,
                                    bit_width := bf &&& 0x0F }
                if o3 + 1 < data.length ∧ getByte data (o3 + 1) = 1 then
                  ({ f1 with consume := true }, o3 + 2)
                else (f1, o3 + 1)
              else (f0, o3)
            let f2 := bfr.1
            let o4 := bfr.2
            -- addend marker 0xA0 + 2-byte signed LE addend, value / 100
            let adr : field_def × ℕ :=
              if o4 < data.length ∧ getByte data o4 = 0xA0 then
                if o4 + 2 < data.length then
                  let a := getByte data (o4 + 1) + getByte data (o4 + 2) * 256
                  ({ f2 with add := (toSigned 16 a : ℚ) / 100, has_add := true }, o4 + 3)
                else (f2, o4 + 1)
              else (f2, o4)
            let f3 := adr.1
            let o5 := adr.2
            let lkr : field_def × ℕ :=
              if has_lookup ∧ o5 < data.length then
                let cnt := getByte data o5
                let r := load_lookup data (min cnt 16) (o5 + 1) []
                ({ f3 with lookup := r.1 }, r.2)
              else (f3, o5)
            load_field_loop data n lkr.2 (schema_add_field s lkr.1)

/-- `schema_load_binary`: parse header (magic `PS`, version, flags with
endianness bit, field count), then the field records.  Only an invalid
header fails; everything after the header parses best-effort. -/
def schema_load_binary (data : List ℕ) : ℤ × schema_t :=
  if data.length < 5 then (SCHEMA_ERR_PARSE, schema_init)
  else if getByte data 0 ≠ 0x50 ∨ getByte data 1 ≠ 0x53 then (SCHEMA_ERR_PARSE, schema_init)
  else
    let s0 : schema_t :=
      { schema_init with
        version := (getByte data 2 : ℤ),
        endian := if getByte data 3 &&& 1 ≠ 0 then .little else .big }
    (SCHEMA_OK, load_field_loop data (getByte data 4) 5 s0)

/-! ## Derived notions used by the stated properties -/

/-- Byte width of the fixed-width integer types. -/
def width_of : field_type → ℕ
  | .u8 => 1 | .s8 => 1
  | .u16 => 2 | .s16 => 2
  | .u24 => 3 | .s24 => 3
  | .u32 => 4 | .s32 => 4
  | .u64 => 8 | .s64 => 8
  | _ => 0

/-- Fixed-width integer types (unsigned/signed, 1/2/3/4/8 bytes). -/
def is_plain_int : field_type → Bool
  | .u8 | .s8 | .u16 | .s16 | .u24 | .s24 | .u32 | .s32 | .u64 | .s64 => true
  | _ => false

/-- Integer values the double-based pipeline carries exactly.  Widths up
to 4 bytes admit their full declared range (all below 2^32).  For the
8-byte widths the bound is `2^52`, not the declared width: from 2^52 on
the encoder's `raw + 0.5` binary64 addition rounds ties-to-even (so odd
values are not recovered; 2^52 + 1 encodes as 2^52 + 2), beyond 2^53 the
decoder's `(double)raw_value` store rounds too, and near 2^63 the
encoder's `(int64_t)` cast is undefined C behaviour. -/
def int_in_range : field_type → ℤ → Prop
  | .u8, v => 0 ≤ v ∧ v < 2 ^ 8
  | .u16, v => 0 ≤ v ∧ v < 2 ^ 16
  | .u24, v => 0 ≤ v ∧ v < 2 ^ 24
  | .u32, v => 0 ≤ v ∧ v < 2 ^ 32
  | .u64, v => 0 ≤ v ∧ v < 2 ^ 52
  | .s8, v => -2 ^ 7 ≤ v ∧ v < 2 ^ 7
  | .s16, v => -2 ^ 15 ≤ v ∧ v < 2 ^ 15
  | .s24, v => -2 ^ 23 ≤ v ∧ v < 2 ^ 23
  | .s32, v => -2 ^ 31 ≤ v ∧ v < 2 ^ 31
  | .s64, v => -2 ^ 52 < v ∧ v < 2 ^ 52
  | _, _ => False

/-- A field of integer type with no modifiers, no lookup table, and an
emittable name (non-empty, not underscore-internal). -/
def plain_int_field (f : field_def) : Prop :=
  is_plain_int f.type = true ∧ f.has_mult = false ∧ f.has_div = false ∧
  f.has_add = false ∧ f.lookup = [] ∧ f.name ≠ "" ∧ f.name.front ≠ '_'

/-- Total byte width of a field list. -/
def widthSum (fs : List field_def) : ℕ := (fs.map (fun f => width_of f.type)).sum

/-- Input-map value for a name (0 when absent, which the hypotheses of the
round-trip theorem exclude for encoded fields). -/
def input_q (inputs : List (String × ℚ)) (n : String) : ℚ :=
  (find_input inputs n).getD 0

/-- Effective endianness of a field resolved against the schema default,
as the Boolean `= big` used by both the reader selection and `write_int`. -/
def eff_be (f : field_def) (se : endian_t) : Bool :=
  (if f.endian ≠ endian_t.default_e then f.endian else se) = endian_t.big

/-- The input map holds, for this field's name, an integer value
expressible in the field's declared width (decidable form: the stored
rational has denominator 1 and an in-range numerator). -/
def input_int_ok (inputs : List (String × ℚ)) (f : field_def) : Prop :=
  find_input inputs f.name = some (input_q inputs f.name) ∧
  (input_q inputs f.name).den = 1 ∧
  int_in_range f.type (input_q inputs f.name).num

instance int_in_range_dec (t : field_type) (v : ℤ) : Decidable (int_in_range t v) := by
  unfold int_in_range
  cases t <;> infer_instance

instance plain_int_field_dec (f : field_def) : Decidable (plain_int_field f) := by
  unfold plain_int_field
  infer_instance

instance input_int_ok_dec (inputs : List (String × ℚ)) (f : field_def) :
    Decidable (input_int_ok inputs f) := by
  unfold input_int_ok
  infer_instance

/-- Bytes the encoder emits for one plain integer field. -/
def plain_bytes (f : field_def) (inputs : List (String × ℚ)) (se : endian_t) : List ℕ :=
  int_bytes (encode_round (input_q inputs f.name)) (width_of f.type) (eff_be f se)

/-- Concatenated encoder output for a plain-integer field list. -/
def plain_bytes_all (fs : List field_def) (inputs : List (String × ℚ)) (se : endian_t) :
    List ℕ :=
  (fs.map (fun f => plain_bytes f inputs se)).flatten

/-- The decoded field a plain integer field yields on round trip. -/
def plain_out (f : field_def) (inputs : List (String × ℚ)) : decoded_field :=
  ⟨f.name, .num (input_q inputs f.name), f.type, true⟩

/-! ## Concrete schemas and payloads of the stated scenarios -/

/-- Scenario 1/5 schema: `s16 temperature ×0.01 BE`, `u8 humidity ×0.5`,
`u16 battery BE`, `u8 status` (schema default endianness big). -/
def envSchema : schema_t :=
  { schema_init with
    fields :=
      [ { field_zero with
          name := "temperature", type := .s16, size := 2, endian := .big,
          mult := 1 / 100, has_mult := true },
        { field_zero with
          name := "humidity", type := .u8, size := 1,
          mult := 1 / 2, has_mult := true },
        { field_zero with
          name := "battery", type := .u16, size := 2, endian := .big },
        { field_zero with
          name := "status", type := .u8, size := 1 } ] }

/-- Scenario 5 input map. -/
def envInputs : List (String × ℚ) :=
  [("temperature", 23.45), ("humidity", 65), ("battery", 3300), ("status", 0)]

/-- Scenario 3 schema: `u8 msg_type` bound to variable `msg_type`, then a
match on `$msg_type` whose case 1 selects field 2 (`s16 temperature ×0.01
BE`) and case 2 selects field 3 (`u8 humidity`); the case fields are
entries 2 and 3 of the flat field list. -/
def matchSchema : schema_t :=
  { schema_init with
    fields :=
      [ { field_zero with
          name := "msg_type", type := .u8, size := 1, var_name := "msg_type" },
        { field_zero with
          name := "_match", type := .tmatch, match_var := "$msg_type",
          cases :=
            [ { match_value := 1, match_list := List.replicate 8 (-1), range_min := 0,
                range_max := 0, is_default := false, field_start := 2, field_count := 1 },
              { match_value := 2, match_list := List.replicate 8 (-1), range_min := 0,
                range_max := 0, is_default := false, field_start := 3, field_count := 1 } ] },
        { field_zero with
          name := "temperature", type := .s16, size := 2, endian := .big,
          mult := 1 / 100, has_mult := true },
        { field_zero with
          name := "humidity", type := .u8, size := 1 } ] }

/-- Schema whose match case selects the underscore-named field entry 2. -/
def underscoreSchema : schema_t :=
  { schema_init with
    fields :=
      [ { field_zero with
          name := "t", type := .u8, size := 1, var_name := "v" },
        { field_zero with
          name := "_m", type := .tmatch, match_var := "v",
          cases :=
            [ { match_value := 0, match_list := List.replicate 8 (-1), range_min := 0,
                range_max := 0, is_default := false, field_start := 2, field_count := 1 } ] },
        { field_zero with
          name := "_hidden", type := .u8, size := 1, var_name := "hv" } ] }

/-- Schema where an underscore-named field binds the variable driving a
later match: `u8 _t` (variable `v`), match on `v` with case 7 selecting
field 2 (`u8 val`). -/
def underscoreVarSchema : schema_t :=
  { schema_init with
    fields :=
      [ { field_zero with
          name := "_t", type := .u8, size := 1, var_name := "v" },
        { field_zero with
          name := "_m", type := .tmatch, match_var := "v",
          cases :=
            [ { match_value := 7, match_list := List.replicate 8 (-1), range_min := 0,
                range_max := 0, is_default := false, field_start := 2, field_count := 1 } ] },
        { field_zero with
          name := "val", type := .u8, size := 1 } ] }

/-- A schema with a single required `u8` field named `x`. -/
def oneFieldSchema : schema_t :=
  { schema_init with
    fields := [ { field_zero with name := "x", type := .u8, size := 1 } ] }

/-- Schema `u8 a` then `u24 b` (for the partial-decode error result). -/
def abSchema : schema_t :=
  { schema_init with
    fields :=
      [ { field_zero with name := "a", type := .u8, size := 1 },
        { field_zero with name := "b", type := .u24, size := 3 } ] }

/-- Schema with a single plain big-endian `u64` field, used to exhibit the
precision loss of the double-based integer round trip. -/
def c1CxSchema : schema_t :=
  { schema_init with
    fields :=
      [ { field_zero with name := "x", type := .u64, size := 8, endian := .big } ] }

/-- Input map carrying `2^52 + 1` for that field: an integer expressible in
the declared 8-byte width (and exactly representable as a C `double`). -/
def c1CxInputs : List (String × ℚ) := [("x", 4503599627370497)]

/-- Scenario 6 schema: a single big-endian `u24` field. -/
def u24Schema : schema_t :=
  { schema_init with
    fields :=
      [ { field_zero with name := "val", type := .u24, size := 3, endian := .big } ] }

/-- Schema with a single 5-byte `skip` field. -/
def skipSchema : schema_t :=
  { schema_init with
    fields := [ { field_zero with name := "_skip", type := .skip, size := 5 } ] }

/-- Descriptor with a valid header declaring one bitfield-class record that
is truncated before its mandatory bitfield parameter byte. -/
def bfTruncDescriptor : List ℕ :=
  [0x50, 0x53, 0x01, 0x00, 0x01, 0x61, 0x00, 0x00, 0x00]

/-- Descriptor declaring two fields where the second record breaks off
after its type byte (truncation in the mandatory 4-byte core). -/
def coreTruncDescriptor : List ℕ :=
  [0x50, 0x53, 0x01, 0x00, 0x02, 0x01, 0x00, 0xE7, 0x0C, 0x01]

/-! ## Theorems -/

set_option maxRecDepth 10000

attribute [local semireducible] Rat.mul Rat.ofScientific Rat.add Rat.sub Rat.inv

/-- The out-slot of the integer tail keeps the given name. -/
theorem finish_int_name (f : field_def) (raw : ℤ) (pos' : ℕ) (out0 : decoded_field)
    (vars : List (String × ℤ)) :
    (finish_int f raw pos' out0 vars).out.name = out0.name := by
  unfold finish_int
  repeat' split
  all_goals rfl

/-- The out-slot of `decode_field` always carries the field's name. -/
theorem decode_field_name (f : field_def) (buf : List ℕ) (pos : ℕ)
    (vars : List (String × ℤ)) (de : endian_t) :
    (decode_field f buf pos vars de).out.name = f.name := by
  unfold decode_field
  cases hft : f.type
  all_goals
    first
      | rfl
      | (dsimp only
         (repeat' split) <;> (first | rfl | rw [finish_int_name]))

/-- Any error result of the decode loop has `bytes_consumed = 0`: the C
code writes `bytes_consumed` only on the success path. -/
theorem go_error_bytes (S : schema_t) (buf : List ℕ) :
    ∀ n i pos vars acc, (schema_decode_go S buf n i pos vars acc).error_code ≠ 0 →
      (schema_decode_go S buf n i pos vars acc).bytes_consumed = 0 := by
  intro n
  induction n with
  | zero =>
      intro i pos vars acc h
      simp [schema_decode_go, SCHEMA_OK] at h
  | succ n ih =>
      intro i pos vars acc
      rw [schema_decode_go]
      by_cases hm : (S.fields.getD i field_zero).type = field_type.tmatch
      · rw [if_pos hm]
        simp only []
        cases hfc : find_case (S.fields.getD i field_zero).cases
            (var_get vars (strip_dollar (S.fields.getD i field_zero).match_var)) with
        | none => exact ih _ _ _ _
        | some cs =>
            simp only []
            by_cases hrc :
                (decode_case_fields S buf cs.field_count cs.field_start pos vars acc).1 ≠ SCHEMA_OK
            · rw [if_pos hrc]; intro _; rfl
            · rw [if_neg hrc]; exact ih _ _ _ _
      · rw [if_neg hm]
        simp only []
        by_cases hrc : (decode_field (S.fields.getD i field_zero) buf pos vars S.endian).rc ≠ SCHEMA_OK
        · rw [if_pos hrc]; intro _; rfl
        · rw [if_neg hrc]; exact ih _ _ _ _

/-- An unbound variable name reads as 0. -/
theorem var_get_unbound : ∀ (vars : List (String × ℤ)) (n : String),
    (∀ e ∈ vars, e.1 ≠ n) → var_get vars n = 0 := by
  intro vars
  induction vars with
  | nil => intro n _; rfl
  | cons e rest ih =>
      intro n h
      have he : e.1 ≠ n := h e (List.mem_cons_self e rest)
      rw [var_get, if_neg he]
      exact ih n (fun x hx => h x (List.mem_cons_of_mem e hx))

/-- In a schema with no `match` field every output field of the decode
loop has a non-empty name not beginning with `_` (the regular emission
filter). -/
theorem go_no_underscore (S : schema_t) (buf : List ℕ)
    (hS : ∀ f ∈ S.fields, f.type ≠ field_type.tmatch) :
    ∀ n i pos vars acc,
      (∀ g ∈ acc, g.name ≠ "" ∧ g.name.front ≠ '_') →
      ∀ g ∈ (schema_decode_go S buf n i pos vars acc).fields,
        g.name ≠ "" ∧ g.name.front ≠ '_' := by
  intro n
  induction n with
  | zero =>
      intro i pos vars acc hacc
      simpa [schema_decode_go] using hacc
  | succ n ih =>
      intro i pos vars acc hacc
      rw [schema_decode_go]
      by_cases hm : (S.fields.getD i field_zero).type = field_type.tmatch
      · exfalso
        by_cases hi : i < S.fields.length
        · rw [List.getD_eq_getElem _ _ hi] at hm
          exact hS _ (List.getElem_mem hi) hm
        · rw [List.getD_eq_default _ _ (Nat.le_of_not_lt hi)] at hm
          exact absurd hm (by decide)
      · rw [if_neg hm]
        dsimp only
        by_cases hrc :
            (decode_field (S.fields.getD i field_zero) buf pos vars S.endian).rc ≠ SCHEMA_OK
        · rw [if_pos hrc]
          intro g hg
          exact hacc g hg
        · rw [if_neg hrc]
          apply ih
          intro g hg
          rcases List.mem_append.mp hg with h | h
          · exact hacc g h
          · by_cases he : emit_regular (S.fields.getD i field_zero)
                (decode_field (S.fields.getD i field_zero) buf pos vars S.endian).out
            · rw [if_pos he] at h
              rcases List.mem_singleton.mp h with rfl
              have hn := decode_field_name (S.fields.getD i field_zero) buf pos vars S.endian
              unfold emit_regular at he
              simp only [Bool.and_eq_true, decide_eq_true_eq] at he
              exact ⟨hn ▸ he.1.2, hn ▸ he.2⟩
            · rw [if_neg he] at h
              exact absurd h (List.not_mem_nil g)

/-- C2: for the match schema of scenario 3 (`u8 msg_type` bound to
`msg_type`, match with case 1 → field 2 `s16 temperature ×0.01 BE`,
case 2 → field 3 `u8 humidity`), the claim expects successful decodes
`{msg_type:1, temperature:23.45}` and `{msg_type:2, humidity:100}`.
The code does produce exactly those output fields, but the main loop then
re-decodes the case-member fields (entries 2 and 3 of the flat list) and
runs off the end of the payload, so both decodes return `BufferUnderrun`
instead of success. -/
theorem C2_match_dispatch_code_evaluation :
    schema_decode matchSchema [0x01, 0x09, 0x29] =
      ⟨[⟨"msg_type", .num 1, .u8, true⟩, ⟨"temperature", .num 23.45, .s16, true⟩],
        0, SCHEMA_ERR_BUFFER⟩ ∧
    schema_decode matchSchema [0x02, 0x64] =
      ⟨[⟨"msg_type", .num 2, .u8, true⟩, ⟨"humidity", .num 100, .u8, true⟩],
        0, SCHEMA_ERR_BUFFER⟩ := by
  constructor <;> decide

/-- C3 counterexample: decoding `underscoreSchema` on `00 05 07` succeeds
and its output list contains the field named `_hidden` — a name beginning
with `_` that was emitted through the selected match case, where the C
code omits the underscore filter. -/
theorem C3_counterexample :
    schema_decode underscoreSchema [0, 5, 7] =
      ⟨[⟨"t", .num 0, .u8, true⟩, ⟨"_hidden", .num 5, .u8, true⟩], 3, SCHEMA_OK⟩ ∧
    ("_hidden").front = '_' := by
  constructor <;> decide

/-- C3 (amended): fields reached directly in the schema's field list are
suppressed from the output when their name begins with `_` (for match-free
schemas no output name is empty or underscore-led), and underscore fields
still populate the variable environment (in `underscoreVarSchema` the
suppressed `_t` drives the match through variable `v`); but a field
decoded through a selected match case is emitted even when its name
begins with `_`. -/
theorem C3_underscore_suppression_amended :
    (∀ (S : schema_t) (buf : List ℕ),
        (∀ f ∈ S.fields, f.type ≠ field_type.tmatch) →
        ∀ g ∈ (schema_decode S buf).fields, g.name ≠ "" ∧ g.name.front ≠ '_') ∧
    schema_decode underscoreVarSchema [7, 9, 9] =
      ⟨[⟨"val", .num 9, .u8, true⟩, ⟨"val", .num 9, .u8, true⟩], 3, SCHEMA_OK⟩ := by
  refine ⟨fun S buf hS => go_no_underscore S buf hS _ _ _ _ _ (by simp), by decide⟩

theorem C3_underscore_suppression_amended_witness :
    (∀ f ∈ abSchema.fields, f.type ≠ field_type.tmatch) ∧
    (∀ g ∈ (schema_decode abSchema [1, 2, 3, 4]).fields,
        g.name ≠ "" ∧ g.name.front ≠ '_') :=
  ⟨by decide, C3_underscore_suppression_amended.1 abSchema [1, 2, 3, 4] (by decide)⟩

/-- C4: encoding with an input map that lacks the non-skip field `x`
fails, but with `SCHEMA_ERR_PARSE` (−1) — the C line `return
SCHEMA_ERR_PARSE; /* Missing input */` — not with the documented
`SCHEMA_ERR_MISSING` (−7), which is defined and never used. -/
theorem C4_missing_input_code_evaluation :
    find_input [] "x" = none ∧
    (schema_encode oneFieldSchema []).error_code = SCHEMA_ERR_PARSE ∧
    SCHEMA_ERR_PARSE ≠ SCHEMA_ERR_MISSING := by
  refine ⟨rfl, by decide, by decide⟩

/-- C5 counterexample: decoding `u8 a`, `u24 b` against a 3-byte payload
fails with `BufferUnderrun` after `a` succeeded; the cursor after the last
successful field advance is 1, yet the result's bytes-consumed count is 0
— refuting the claim that it equals the cursor (and is not zero). -/
theorem C5_counterexample :
    (schema_decode abSchema [1, 2, 3]).error_code = SCHEMA_ERR_BUFFER ∧
    (schema_decode abSchema [1, 2, 3]).bytes_consumed = 0 ∧
    (decode_field (abSchema.fields.getD 0 field_zero) [1, 2, 3] 0 [] .big).pos = 1 := by
  refine ⟨by decide, by decide, by decide⟩

/-- C5 (amended): on a decode failure the error code is set and the field
list contains exactly the fields produced before the failure, but the
bytes-consumed count is always 0 (it is written only on success).  The
concrete instance holds: a single big-endian `u24` against 2 bytes yields
`BufferUnderrun` with no fields. -/
theorem C5_decode_error_amended :
    (∀ (S : schema_t) (buf : List ℕ),
        (schema_decode S buf).error_code ≠ 0 → (schema_decode S buf).bytes_consumed = 0) ∧
    schema_decode u24Schema [1, 2] = ⟨[], 0, SCHEMA_ERR_BUFFER⟩ ∧
    schema_decode abSchema [1, 2, 3] =
      ⟨[⟨"a", .num 1, .u8, true⟩], 0, SCHEMA_ERR_BUFFER⟩ := by
  exact ⟨fun S buf => go_error_bytes S buf _ _ _ _ _, by decide, by decide⟩

theorem C5_decode_error_amended_witness :
    (schema_decode u24Schema [1, 2]).error_code ≠ 0 ∧
    (schema_decode u24Schema [1, 2]).bytes_consumed = 0 :=
  ⟨by decide, C5_decode_error_amended.1 u24Schema [1, 2] (by decide)⟩

/-- C9: decoding a `skip` field performs no bounds check at all — it
always succeeds, leaves the out-slot invalid, and advances the cursor by
the field's size (1 when the size is 0) regardless of the buffer; hence a
successful decode can report more bytes consumed than the payload holds
(`skipSchema` on the empty payload reports 5 > 0). -/
theorem C9_skip_no_bounds_check :
    (∀ (f : field_def) (buf : List ℕ) (pos : ℕ) (vars : List (String × ℤ))
        (de : endian_t), f.type = field_type.skip →
        decode_field f buf pos vars de =
          ⟨SCHEMA_OK, ⟨f.name, .zero, f.type, false⟩,
            pos + (if f.size = 0 then 1 else f.size), vars⟩) ∧
    schema_decode skipSchema [] = ⟨[], 5, SCHEMA_OK⟩ ∧
    (5 : ℕ) > (List.length ([] : List ℕ)) := by
  refine ⟨?_, by decide, by decide⟩
  intro f buf pos vars de h
  rcases f with ⟨nm, ty, sz, bs, bw, co, en, mu, dv, ad, hm, hd, ha, vn, lk, mv, cs, ns, nc⟩
  cases h
  rfl

theorem C9_skip_no_bounds_check_witness :
    ({ field_zero with type := field_type.skip, size := 3 } : field_def).type =
      field_type.skip ∧
    decode_field { field_zero with type := field_type.skip, size := 3 } [] 0 [] .big =
      ⟨SCHEMA_OK, ⟨"", .zero, field_type.skip, false⟩, 0 + (if (3 : ℕ) = 0 then 1 else 3), []⟩ :=
  ⟨rfl, C9_skip_no_bounds_check.1 _ [] 0 [] .big rfl⟩

/-- C10: `var_get` yields 0 for a name with no entry in the variable
context, so a match whose variable was never bound selects its case
exactly as if the variable's value were 0. -/
theorem C10_unbound_variable_dispatch :
    (∀ (vars : List (String × ℤ)) (n : String),
        (∀ e ∈ vars, e.1 ≠ n) → var_get vars n = 0) ∧
    (∀ (f : field_def) (vars : List (String × ℤ)),
        (∀ e ∈ vars, e.1 ≠ strip_dollar f.match_var) →
        find_case f.cases (var_get vars (strip_dollar f.match_var)) =
          find_case f.cases 0) :=
  ⟨var_get_unbound, fun f vars h => by rw [var_get_unbound vars _ h]⟩

/-- `schema_load_binary` fails exactly on an invalid header (buffer
shorter than 5 bytes or magic other than `P`,`S`); everything else
returns `SCHEMA_OK`. -/
theorem load_binary_rc (data : List ℕ) :
    (schema_load_binary data).1 =
      (if data.length < 5 ∨ getByte data 0 ≠ 0x50 ∨ getByte data 1 ≠ 0x53
       then SCHEMA_ERR_PARSE else SCHEMA_OK) := by
  unfold schema_load_binary
  by_cases h1 : data.length < 5
  · simp [h1]
  · by_cases h2 : getByte data 0 ≠ 0x50 ∨ getByte data 1 ≠ 0x53
    · simp [h1, h2]
    · simp [h1, h2]

/-- C6 counterexample: `bfTruncDescriptor` has a valid header and one
declared bitfield-class record; the record runs past the buffer (its
mandatory bitfield parameter byte is missing), yet loading succeeds with
the incomplete record included — the schema is not "built from the
complete records before it". -/
theorem C6_counterexample :
    (schema_load_binary bfTruncDescriptor).1 = SCHEMA_OK ∧
    ((schema_load_binary bfTruncDescriptor).2).fields.length = 1 ∧
    (((schema_load_binary bfTruncDescriptor).2).fields.getD 0 field_zero).type =
      field_type.bits := by
  refine ⟨by decide, by decide, by decide⟩

/-- C6 (amended): loading fails with `ParseError` exactly when the 5-byte
header is invalid; with a valid header it always succeeds.  A record
truncated inside its mandatory 4-byte core (type, multiplier, 2-byte id)
is dropped and parsing stops (`coreTruncDescriptor` keeps only its first
record); but a record truncated in its trailing bytes (bitfield
parameters, addend, lookup entries) is still added with the data
available (`bfTruncDescriptor` loads 1 field). -/
theorem C6_load_binary_amended :
    (∀ data : List ℕ, (schema_load_binary data).1 =
        (if data.length < 5 ∨ getByte data 0 ≠ 0x50 ∨ getByte data 1 ≠ 0x53
         then SCHEMA_ERR_PARSE else SCHEMA_OK)) ∧
    (schema_load_binary coreTruncDescriptor).1 = SCHEMA_OK ∧
    ((schema_load_binary coreTruncDescriptor).2).fields.length = 1 ∧
    (((schema_load_binary coreTruncDescriptor).2).fields.getD 0 field_zero).name =
      "temperature" ∧
    ((schema_load_binary bfTruncDescriptor).2).fields.length = 1 ∧
    (schema_load_binary [0x50, 0x51]).1 = SCHEMA_ERR_PARSE ∧
    (schema_load_binary [0x51, 0x53, 0, 0, 0]).1 = SCHEMA_ERR_PARSE ∧
    (schema_load_binary [0x50, 0x53, 0, 0, 0]).1 = SCHEMA_OK := by
  refine ⟨load_binary_rc, by decide, by decide, by decide, by decide, by decide,
    by decide, by decide⟩

theorem C10_unbound_variable_dispatch_witness :
    (∀ e ∈ [(("x" : String), (5 : ℤ))], e.1 ≠ "y") ∧
    var_get [(("x" : String), (5 : ℤ))] "y" = 0 ∧
    find_case (matchSchema.fields.getD 1 field_zero).cases
        (var_get [(("x" : String), (5 : ℤ))]
          (strip_dollar (matchSchema.fields.getD 1 field_zero).match_var)) =
      find_case (matchSchema.fields.getD 1 field_zero).cases 0 :=
  ⟨by decide, C10_unbound_variable_dispatch.1 _ _ (by decide),
    C10_unbound_variable_dispatch.2 _ _ (by decide)⟩

/-- Bytes read through `getByte` are below 256. -/
theorem getByte_lt (buf : List ℕ) (i : ℕ) : getByte buf i < 256 :=
  Nat.mod_lt _ (by norm_num)

/-- Bitwise-or of a shifted high part with a small low part is addition. -/
theorem lor_high_low (a b i : ℕ) (hb : b < 2 ^ i) : (a * 2 ^ i) ||| b = a * 2 ^ i + b := by
  apply Nat.eq_of_testBit_eq
  intro j
  rw [Nat.testBit_lor, mul_comm a (2 ^ i), Nat.testBit_mul_pow_two_add a hb]
  rcases lt_or_ge j i with h | h
  · have h0 : (2 ^ i * a).testBit j = false := by
      have := Nat.testBit_mul_pow_two_add a (Nat.two_pow_pos i) j
      simpa [h] using this
    simp [h, h0]
  · have hb' : b < 2 ^ j := lt_of_lt_of_le hb (Nat.pow_le_pow_right (by norm_num) h)
    have h0 : (2 ^ i * a).testBit j = a.testBit (j - i) := by
      have := Nat.testBit_mul_pow_two_add a (Nat.two_pow_pos i) j
      simpa [Nat.not_lt.mpr h] using this
    simp [Nat.not_lt.mpr h, h0, Nat.testBit_eq_false_of_lt hb']

theorem read_u24_be_lt (buf : List ℕ) (p : ℕ) : read_u24_be buf p < 2 ^ 24 := by
  have h0 := getByte_lt buf p
  have h1 := getByte_lt buf (p + 1)
  have h2 := getByte_lt buf (p + 2)
  unfold read_u24_be
  omega

theorem read_u24_le_lt (buf : List ℕ) (p : ℕ) : read_u24_le buf p < 2 ^ 24 := by
  have h0 := getByte_lt buf p
  have h1 := getByte_lt buf (p + 1)
  have h2 := getByte_lt buf (p + 2)
  unfold read_u24_le
  omega

/-- The C sign-extension trick (`val |= 0xFF000000` then an `int32_t`
cast) subtracts `2^24` exactly when bit 23 is set. -/
theorem s24_spec_core (v : ℕ) (hv : v < 2 ^ 24) :
    toSigned 32 (if v.testBit 23 then v ||| 0xFF000000 else v) =
      (if v.testBit 23 then (v : ℤ) - 2 ^ 24 else (v : ℤ)) := by
  by_cases hb : v.testBit 23
  · have hge : 2 ^ 23 ≤ v := by
      have ht := Nat.testBit_to_div_mod (x := v) (i := 23)
      rw [hb] at ht
      have : v / 2 ^ 23 % 2 = 1 := by
        have := ht.symm
        simpa using this
      omega
    have hor : v ||| 0xFF000000 = 255 * 2 ^ 24 + v := by
      have : (0xFF000000 : ℕ) = 255 * 2 ^ 24 := by norm_num
      rw [this, Nat.lor_comm, lor_high_low 255 v 24 hv]
    rw [if_pos hb, if_pos hb, hor]
    unfold toSigned
    rw [if_neg (by push_cast; omega)]
    push_cast
    ring
  · have hbf : v.testBit 23 = false := by
      cases h23 : v.testBit 23
      · rfl
      · exact absurd h23 hb
    have hlt : v < 2 ^ 23 := by
      have ht := Nat.testBit_to_div_mod (x := v) (i := 23)
      rw [hbf] at ht
      have hnc : ¬ (v / 2 ^ 23 % 2 = 1) := by
        intro hc
        rw [hc] at ht
        simp at ht
      omega
    rw [if_neg hb, if_neg hb]
    unfold toSigned
    rw [if_pos (by push_cast; omega)]

theorem read_s24_be_spec (buf : List ℕ) (p : ℕ) :
    read_s24_be buf p =
      (if (read_u24_be buf p).testBit 23 then (read_u24_be buf p : ℤ) - 2 ^ 24
       else (read_u24_be buf p : ℤ)) := by
  unfold read_s24_be
  exact s24_spec_core _ (read_u24_be_lt buf p)

theorem read_s24_le_spec (buf : List ℕ) (p : ℕ) :
    read_s24_le buf p =
      (if (read_u24_le buf p).testBit 23 then (read_u24_le buf p : ℤ) - 2 ^ 24
       else (read_u24_le buf p : ℤ)) := by
  unfold read_s24_le
  exact s24_spec_core _ (read_u24_le_lt buf p)

/-- Subnormal half-floats decode to `± frac/1024 × 2^-14`. -/
theorem f16_subnormal (b0 b1 : ℕ) (h0 : b0 < 256) (h1 : b1 < 256)
    (hexp : b0 % 128 < 4) (hfrac : ¬(b0 % 4 = 0 ∧ b1 = 0)) :
    read_f16_be [b0, b1] 0 =
      .fin ((if 128 ≤ b0 then (-1 : ℚ) else 1) *
        (((b0 % 4) * 256 + b1 : ℕ) : ℚ) / 1024 * (1 / 2 ^ 14)) := by
  have hg0 : getByte [b0, b1] 0 = b0 := by simp [getByte, Nat.mod_eq_of_lt h0]
  have hg1 : getByte [b0, b1] (0 + 1) = b1 := by simp [getByte, Nat.mod_eq_of_lt h1]
  unfold read_f16_be read_u16_be f16_of_bits
  rw [hg0, hg1]
  have hexp0 : (b0 * 256 + b1) / 2 ^ 10 % 32 = 0 := by omega
  have hfrac0 : (b0 * 256 + b1) % 1024 = (b0 % 4) * 256 + b1 := by omega
  rw [hexp0]
  simp only [if_pos rfl, hfrac0]
  rw [if_neg (by omega : ¬((b0 % 4) * 256 + b1 = 0))]
  have hsign : (b0 * 256 + b1) / 2 ^ 15 % 2 = (if 128 ≤ b0 then 1 else 0) := by
    split <;> omega
  rw [hsign]
  by_cases hs : 128 ≤ b0
  · simp only [if_pos hs]
    norm_num
    ring
  · simp only [if_neg hs]
    norm_num

/-- C7: the big-endian half-precision reader follows IEEE 754 binary16:
`0x3C00 → 1.0`, `0x0000 → +0.0`, `0x7C00 → +∞`, `0xFC00 → −∞`,
`0x7E00 → NaN`, and every subnormal pattern (exponent 0, fraction ≠ 0)
decodes to `fraction/1024 × 2^-14` with the sign bit applied. -/
theorem C7_half_float_decode :
    read_f16_be [0x3C, 0x00] 0 = .fin 1 ∧
    read_f16_be [0x00, 0x00] 0 = .fin 0 ∧
    read_f16_be [0x7C, 0x00] 0 = .inf false ∧
    read_f16_be [0xFC, 0x00] 0 = .inf true ∧
    read_f16_be [0x7E, 0x00] 0 = .nan ∧
    (∀ b0 b1 : ℕ, b0 < 256 → b1 < 256 → b0 % 128 < 4 → ¬(b0 % 4 = 0 ∧ b1 = 0) →
      read_f16_be [b0, b1] 0 =
        .fin ((if 128 ≤ b0 then (-1 : ℚ) else 1) *
          (((b0 % 4) * 256 + b1 : ℕ) : ℚ) / 1024 * (1 / 2 ^ 14))) :=
  ⟨by decide, by decide, by decide, by decide, by decide, f16_subnormal⟩

theorem C7_half_float_decode_witness :
    (128 % 128 < 4) ∧ ¬(128 % 4 = 0 ∧ (1 : ℕ) = 0) ∧
    read_f16_be [128, 1] 0 =
      .fin ((if 128 ≤ 128 then (-1 : ℚ) else 1) *
        (((128 % 4) * 256 + 1 : ℕ) : ℚ) / 1024 * (1 / 2 ^ 14)) :=
  ⟨by decide, by decide,
    C7_half_float_decode.2.2.2.2.2 128 1 (by decide) (by decide) (by decide) (by decide)⟩

/-- C8: three-byte signed reads sign-extend from bit 23 in both byte
orders — the signed read equals the unsigned read when bit 23 is clear
and the unsigned read minus `2^24` when it is set; and
`FF FF 9C` read as 3-byte signed big-endian is −100. -/
theorem C8_s24_sign_extension :
    (∀ (buf : List ℕ) (p : ℕ),
        read_s24_be buf p =
          (if (read_u24_be buf p).testBit 23 then (read_u24_be buf p : ℤ) - 2 ^ 24
           else (read_u24_be buf p : ℤ)) ∧
        read_s24_le buf p =
          (if (read_u24_le buf p).testBit 23 then (read_u24_le buf p : ℤ) - 2 ^ 24
           else (read_u24_le buf p : ℤ))) ∧
    read_s24_be [0xFF, 0xFF, 0x9C] 0 = -100 :=
  ⟨fun buf p => ⟨read_s24_be_spec buf p, read_s24_le_spec buf p⟩, by decide⟩

end SchemaInterp

namespace SchemaInterp

theorem writeBytes_length : ∀ (bs buf : List ℕ) (pos : ℕ),
    (writeBytes buf pos bs).length = buf.length := by
  intro bs
  induction bs with
  | nil => intro buf pos; rfl
  | cons b rest ih =>
      intro buf pos
      rw [writeBytes, ih, List.length_set]

theorem getD_set_ne (l : List ℕ) (i j : ℕ) (a : ℕ) (h : i ≠ j) :
    (l.set i a).getD j 0 = l.getD j 0 := by
  rw [List.getD_eq_getElem?_getD, List.getD_eq_getElem?_getD, List.getElem?_set_ne h]

theorem getD_set_self (l : List ℕ) (i : ℕ) (a : ℕ) (h : i < l.length) :
    (l.set i a).getD i 0 = a := by
  rw [List.getD_eq_getElem?_getD, List.getElem?_set_self', List.getElem?_eq_getElem h]
  rfl

theorem writeBytes_getD_lt : ∀ (bs buf : List ℕ) (pos i : ℕ), i < pos →
    (writeBytes buf pos bs).getD i 0 = buf.getD i 0 := by
  intro bs
  induction bs with
  | nil => intro buf pos i _; rfl
  | cons b rest ih =>
      intro buf pos i h
      rw [writeBytes, ih _ _ _ (Nat.lt_succ_of_lt h), getD_set_ne _ _ _ _ (by omega)]

theorem writeBytes_getD_inside : ∀ (bs buf : List ℕ) (pos i : ℕ), i < bs.length →
    pos + bs.length ≤ buf.length →
    (writeBytes buf pos bs).getD (pos + i) 0 = bs.getD i 0 := by
  intro bs
  induction bs with
  | nil => intro buf pos i h _; exact absurd h (by simp)
  | cons b rest ih =>
      intro buf pos i h hlen
      rw [writeBytes]
      cases i with
      | zero =>
          rw [writeBytes_getD_lt _ _ _ _ (by omega)]
          simp only [Nat.add_zero]
          exact getD_set_self _ _ _ (by simp at hlen ⊢; omega)
      | succ i =>
          have := ih (buf.set pos b) (pos + 1) i (by simpa using h)
            (by simp at hlen ⊢; omega)
          rw [show pos + (i + 1) = pos + 1 + i by omega, this]
          rfl

theorem writeBytes_writeBytes : ∀ (bs cs buf : List ℕ) (pos : ℕ),
    writeBytes (writeBytes buf pos bs) (pos + bs.length) cs =
      writeBytes buf pos (bs ++ cs) := by
  intro bs
  induction bs with
  | nil => intro cs buf pos; simp [writeBytes]
  | cons b rest ih =>
      intro cs buf pos
      rw [writeBytes, List.cons_append, writeBytes]
      rw [show pos + (b :: rest).length = pos + 1 + rest.length by simp; omega]
      exact ih cs (buf.set pos b) (pos + 1)

end SchemaInterp
namespace SchemaInterp

theorem int_bytes_length (val : ℤ) (size : ℕ) (be : Bool) :
    (int_bytes val size be).length = size := by
  simp [int_bytes]

theorem int_bytes_getD (val : ℤ) (size : ℕ) (be : Bool) (k : ℕ) (hk : k < size) :
    (int_bytes val size be).getD k 0 =
      uint64_of val / 2 ^ (8 * (if be then size - 1 - k else k)) % 256 := by
  unfold int_bytes
  rw [List.getD_eq_getElem _ _ (by simpa using hk)]
  simp [hk]

theorem int_bytes_getD_lt (val : ℤ) (size : ℕ) (be : Bool) (k : ℕ) :
    (int_bytes val size be).getD k 0 < 256 := by
  by_cases hk : k < size
  · rw [int_bytes_getD _ _ _ _ hk]
    exact Nat.mod_lt _ (by norm_num)
  · rw [List.getD_eq_default]
    · norm_num
    · rw [int_bytes_length]; omega

theorem take_writeBytes (bs buf : List ℕ) (h : bs.length ≤ buf.length) :
    (writeBytes buf 0 bs).take bs.length = bs := by
  apply List.ext_getElem
  · rw [List.length_take, writeBytes_length]; omega
  · intro i h1 h2
    rw [List.getElem_take]
    have hw : i < (writeBytes buf 0 bs).length := by rw [writeBytes_length]; omega
    rw [← List.getD_eq_getElem _ 0 hw, ← List.getD_eq_getElem _ 0 h2]
    have := writeBytes_getD_inside bs buf 0 i h2 (by omega)
    simpa using this

theorem log2go_spec : ∀ (fuel n : ℕ), 0 < n → n ≤ fuel →
    2 ^ log2go fuel n ≤ n ∧ n < 2 ^ (log2go fuel n + 1) := by
  intro fuel
  induction fuel with
  | zero => intro n h1 h2; omega
  | succ fuel ih =>
      intro n h1 h2
      by_cases hn : n ≤ 1
      · simp only [log2go, if_pos hn]
        norm_num
        omega
      · simp only [log2go, if_neg hn]
        obtain ⟨ha, hb⟩ := ih (n / 2) (by omega) (by omega)
        simp only [pow_succ] at hb ⊢
        omega

theorem log2floor_spec (n : ℕ) (h : 0 < n) :
    2 ^ log2floor n ≤ n ∧ n < 2 ^ (log2floor n + 1) :=
  log2go_spec n n h le_rfl

theorem rne_intCast (n : ℤ) : rne ((n : ℚ)) = n := by
  unfold rne
  rw [Int.floor_intCast]
  norm_num

theorem ilog2q_spec (q : ℚ) (hq : 0 < q) :
    (2 : ℚ) ^ ilog2q q ≤ q ∧ q < (2 : ℚ) ^ (ilog2q q + 1) := by
  have hnum : 0 < q.num := Rat.num_pos.mpr hq
  have hden : 0 < q.den := q.pos
  have hna : 0 < q.num.natAbs := Int.natAbs_pos.mpr (ne_of_gt hnum)
  obtain ⟨hn1, hn2⟩ := log2floor_spec q.num.natAbs hna
  obtain ⟨hd1, hd2⟩ := log2floor_spec q.den hden
  have hq_eq : q = (q.num.natAbs : ℚ) / (q.den : ℚ) := by
    rw [show ((q.num.natAbs : ℚ)) = ((q.num : ℤ) : ℚ) by
      rw [Int.cast_natAbs]
      exact_mod_cast abs_of_nonneg hnum.le]
    exact (Rat.num_div_den q).symm
  have hN : (0 : ℚ) < (q.num.natAbs : ℚ) := by exact_mod_cast hna
  have hD : (0 : ℚ) < (q.den : ℚ) := by exact_mod_cast hden
  have hn1' : (2 : ℚ) ^ (log2floor q.num.natAbs) ≤ (q.num.natAbs : ℚ) := by
    exact_mod_cast hn1
  have hn2' : (q.num.natAbs : ℚ) < 2 ^ (log2floor q.num.natAbs + 1) := by
    exact_mod_cast hn2
  have hd1' : (2 : ℚ) ^ (log2floor q.den) ≤ (q.den : ℚ) := by exact_mod_cast hd1
  have hd2' : (q.den : ℚ) < 2 ^ (log2floor q.den + 1) := by exact_mod_cast hd2
  have he0 : (2 : ℚ) ^ ((log2floor q.num.natAbs : ℤ) - (log2floor q.den : ℤ) - 1) =
      (2 : ℚ) ^ (log2floor q.num.natAbs) / (2 : ℚ) ^ (log2floor q.den + 1) := by
    rw [show (log2floor q.num.natAbs : ℤ) - (log2floor q.den : ℤ) - 1 =
        (log2floor q.num.natAbs : ℤ) - ((log2floor q.den + 1 : ℕ) : ℤ) by push_cast; ring]
    rw [zpow_sub₀ (by norm_num : (2 : ℚ) ≠ 0), zpow_natCast, zpow_natCast]
  have he2 : (2 : ℚ) ^ ((log2floor q.num.natAbs : ℤ) - (log2floor q.den : ℤ) - 1 + 2) =
      (2 : ℚ) ^ (log2floor q.num.natAbs + 1) / (2 : ℚ) ^ (log2floor q.den) := by
    rw [show (log2floor q.num.natAbs : ℤ) - (log2floor q.den : ℤ) - 1 + 2 =
        ((log2floor q.num.natAbs + 1 : ℕ) : ℤ) - ((log2floor q.den : ℕ) : ℤ) by
      push_cast; ring]
    rw [zpow_sub₀ (by norm_num : (2 : ℚ) ≠ 0), zpow_natCast, zpow_natCast]
  have key1 : (2 : ℚ) ^ ((log2floor q.num.natAbs : ℤ) - (log2floor q.den : ℤ) - 1) ≤ q := by
    rw [he0]
    conv_rhs => rw [hq_eq]
    rw [div_le_div_iff (by positivity) hD]
    exact mul_le_mul hn1' hd2'.le (by positivity) (by positivity)
  have key2 : q < (2 : ℚ) ^ ((log2floor q.num.natAbs : ℤ) - (log2floor q.den : ℤ) - 1 + 2) := by
    rw [he2]
    conv_lhs => rw [hq_eq]
    rw [div_lt_div_iff hD (by positivity)]
    calc (q.num.natAbs : ℚ) * (2 : ℚ) ^ (log2floor q.den)
        < 2 ^ (log2floor q.num.natAbs + 1) * (2 : ℚ) ^ (log2floor q.den) :=
          mul_lt_mul_of_pos_right hn2' (by positivity)
      _ ≤ 2 ^ (log2floor q.num.natAbs + 1) * (q.den : ℚ) :=
          mul_le_mul_of_nonneg_left hd1' (by positivity)
  unfold ilog2q
  dsimp only
  by_cases hc2 : (2 : ℚ) ^ ((log2floor q.num.natAbs : ℤ) - (log2floor q.den : ℤ) - 1 + 2) ≤ q
  · exact absurd hc2 (not_le.mpr key2)
  rw [if_neg hc2]
  by_cases hc1 : (2 : ℚ) ^ ((log2floor q.num.natAbs : ℤ) - (log2floor q.den : ℤ) - 1 + 1) ≤ q
  · rw [if_pos hc1]
    refine ⟨hc1, ?_⟩
    rw [show (log2floor q.num.natAbs : ℤ) - (log2floor q.den : ℤ) - 1 + 1 + 1 =
        (log2floor q.num.natAbs : ℤ) - (log2floor q.den : ℤ) - 1 + 2 by ring]
    exact not_le.mp hc2
  · rw [if_neg hc1]
    exact ⟨key1, not_le.mp hc1⟩

theorem rnd64pos_fix (a : ℚ) (m : ℤ)
    (hm : a * (2 : ℚ) ^ ((52 : ℤ) - max (ilog2q a) (-1022)) = (m : ℚ)) :
    rnd64pos a = a := by
  unfold rnd64pos
  dsimp only
  rw [hm, rne_intCast, ← hm, mul_assoc,
    ← zpow_add₀ (by norm_num : (2 : ℚ) ≠ 0),
    show (52 : ℤ) - max (ilog2q a) (-1022) + (max (ilog2q a) (-1022) - 52) = 0 by ring,
    zpow_zero, mul_one]

theorem zpow_le_big {m n : ℤ} (h : m ≤ n) : (2 : ℚ) ^ m ≤ (2 : ℚ) ^ n :=
  zpow_le_zpow_right₀ (by norm_num) h

theorem ilog2q_le_of_lt (q : ℚ) (hq : 0 < q) (c : ℤ) (hc : q < (2 : ℚ) ^ c) :
    ilog2q q ≤ c - 1 := by
  obtain ⟨hl, _⟩ := ilog2q_spec q hq
  by_contra hgt
  push_neg at hgt
  have : (2 : ℚ) ^ c ≤ (2 : ℚ) ^ ilog2q q := zpow_le_big (by omega)
  linarith

theorem ilog2q_ge_of_le (q : ℚ) (hq : 0 < q) (c : ℤ) (hc : (2 : ℚ) ^ c ≤ q) :
    c ≤ ilog2q q := by
  obtain ⟨_, hu⟩ := ilog2q_spec q hq
  by_contra hlt
  push_neg at hlt
  have : (2 : ℚ) ^ (ilog2q q + 1) ≤ (2 : ℚ) ^ c := zpow_le_big (by omega)
  linarith

theorem rnd64pos_int (v : ℤ) (h0 : 0 < v) (h1 : v < 2 ^ 53) :
    rnd64pos ((v : ℚ)) = (v : ℚ) := by
  have hq : (0 : ℚ) < (v : ℚ) := by exact_mod_cast h0
  have hi0 : (0 : ℤ) ≤ ilog2q ((v : ℚ)) := by
    apply ilog2q_ge_of_le _ hq
    rw [zpow_zero]
    exact_mod_cast h0
  have hi1 : ilog2q ((v : ℚ)) ≤ 52 := by
    have := ilog2q_le_of_lt ((v : ℚ)) hq 53 (by
      rw [show ((53 : ℤ)) = ((53 : ℕ) : ℤ) by norm_num, zpow_natCast]
      exact_mod_cast h1)
    omega
  apply rnd64pos_fix _ (v * 2 ^ ((52 : ℤ) - ilog2q ((v : ℚ))).toNat)
  rw [max_eq_left (by omega : (-1022 : ℤ) ≤ ilog2q ((v : ℚ)))]
  push_cast
  rw [← zpow_natCast (2 : ℚ) ((52 : ℤ) - ilog2q ((v : ℚ))).toNat,
    Int.toNat_of_nonneg (by omega)]

theorem rnd64pos_half (w : ℤ) (h0 : 0 < w) (h1 : w < 2 ^ 53) :
    rnd64pos ((w : ℚ) / 2) = (w : ℚ) / 2 := by
  have hw : (0 : ℚ) < (w : ℚ) := by exact_mod_cast h0
  have hq : (0 : ℚ) < (w : ℚ) / 2 := by positivity
  have hi0 : (-1 : ℤ) ≤ ilog2q ((w : ℚ) / 2) := by
    apply ilog2q_ge_of_le _ hq
    rw [show ((2 : ℚ) ^ (-1 : ℤ)) = 1 / 2 by norm_num]
    rw [div_le_div_iff (by norm_num) (by norm_num)]
    have : (1 : ℚ) ≤ (w : ℚ) := by exact_mod_cast h0
    linarith
  have hi1 : ilog2q ((w : ℚ) / 2) ≤ 51 := by
    have := ilog2q_le_of_lt ((w : ℚ) / 2) hq 52 (by
      rw [show ((52 : ℤ)) = ((53 : ℤ)) - 1 by ring,
        zpow_sub₀ (by norm_num : (2 : ℚ) ≠ 0), zpow_one]
      rw [div_lt_div_iff (by norm_num) (by norm_num)]
      rw [show ((53 : ℤ)) = ((53 : ℕ) : ℤ) by norm_num, zpow_natCast]
      have : (w : ℚ) < 2 ^ 53 := by exact_mod_cast h1
      linarith)
    omega
  apply rnd64pos_fix _ (w * 2 ^ ((51 : ℤ) - ilog2q ((w : ℚ) / 2)).toNat)
  rw [max_eq_left (by omega : (-1022 : ℤ) ≤ ilog2q ((w : ℚ) / 2))]
  push_cast
  rw [← zpow_natCast (2 : ℚ) ((51 : ℤ) - ilog2q ((w : ℚ) / 2)).toNat,
    Int.toNat_of_nonneg (by omega)]
  rw [div_mul_eq_mul_div, div_eq_iff (by norm_num : (2 : ℚ) ≠ 0), mul_assoc]
  congr 1
  rw [show (52 : ℤ) - ilog2q ((w : ℚ) / 2) = 51 - ilog2q ((w : ℚ) / 2) + 1 by ring,
    zpow_add₀ (by norm_num : (2 : ℚ) ≠ 0), zpow_one]

theorem rnd64_int (v : ℤ) (h1 : -(2 : ℤ) ^ 53 < v) (h2 : v < 2 ^ 53) :
    rnd64 ((v : ℚ)) = (v : ℚ) := by
  rcases lt_trichotomy v 0 with hv | hv | hv
  · have hvq : ((v : ℚ)) < 0 := by exact_mod_cast hv
    unfold rnd64
    rw [if_neg (by exact ne_of_lt hvq), if_pos hvq]
    rw [show -((v : ℚ)) = ((-v : ℤ) : ℚ) by push_cast; ring]
    rw [rnd64pos_int (-v) (by omega) (by omega)]
    push_cast
    ring
  · subst hv
    unfold rnd64
    norm_num
  · have hvq : (0 : ℚ) < ((v : ℚ)) := by exact_mod_cast hv
    unfold rnd64
    rw [if_neg (by exact ne_of_gt hvq), if_neg (by exact not_lt.mpr hvq.le)]
    exact rnd64pos_int v hv h2

theorem encode_round_int_small (v : ℤ) (h1 : -(2 : ℤ) ^ 52 < v) (h2 : v < 2 ^ 52) :
    encode_round ((v : ℚ)) = v := by
  unfold encode_round
  by_cases hz : (0 : ℚ) ≤ (v : ℚ)
  · rw [if_pos hz]
    have hr : rnd64 ((v : ℚ) + 1 / 2) = (v : ℚ) + 1 / 2 := by
      have hhalf : ((v : ℚ) + 1 / 2) = ((2 * v + 1 : ℤ) : ℚ) / 2 := by push_cast; ring
      have hv0 : (0 : ℤ) ≤ v := by exact_mod_cast hz
      rw [hhalf]
      unfold rnd64
      rw [if_neg (by positivity), if_neg (by
        rw [not_lt]
        positivity)]
      exact rnd64pos_half (2 * v + 1) (by omega) (by omega)
    rw [hr]
    unfold c_trunc
    rw [if_pos (by linarith : (0 : ℚ) ≤ (v : ℚ) + 1 / 2)]
    rw [show ((v : ℚ) + 1 / 2) = ((v : ℤ) : ℚ) + (1 / 2 : ℚ) by norm_num, Int.floor_int_add]
    norm_num
  · rw [if_neg hz]
    have hv0 : v < 0 := by
      by_contra h
      push_neg at h
      exact hz (by exact_mod_cast h)
    have hr : rnd64 ((v : ℚ) - 1 / 2) = (v : ℚ) - 1 / 2 := by
      have hhalf : ((v : ℚ) - 1 / 2) = -(((1 - 2 * v : ℤ) : ℚ) / 2) := by push_cast; ring
      have hpos : (0 : ℚ) < ((1 - 2 * v : ℤ) : ℚ) / 2 := by
        have : (0 : ℤ) < 1 - 2 * v := by omega
        have h' : (0 : ℚ) < ((1 - 2 * v : ℤ) : ℚ) := by exact_mod_cast this
        positivity
      rw [hhalf]
      unfold rnd64
      rw [if_neg (by
        intro hc
        rw [neg_eq_zero] at hc
        exact absurd hc (ne_of_gt hpos)), if_pos (by linarith)]
      rw [neg_neg]
      rw [rnd64pos_half (1 - 2 * v) (by omega) (by omega)]
    rw [hr]
    unfold c_trunc
    rw [if_neg (by
      intro hc
      have : ((v : ℚ)) < 0 := by exact_mod_cast hv0
      linarith)]
    rw [show -((v : ℚ) - 1 / 2) = ((-v : ℤ) : ℚ) + (1 / 2 : ℚ) by push_cast; ring,
      Int.floor_int_add]
    norm_num

theorem int_in_range_small (t : field_type) (v : ℤ) (ht : is_plain_int t = true)
    (h : int_in_range t v) : -(2 : ℤ) ^ 52 < v ∧ v < 2 ^ 52 := by
  cases t <;> simp [is_plain_int] at ht <;> simp only [int_in_range] at h <;> omega

theorem uint64_of_int (v : ℤ) (h0 : 0 ≤ v) (h1 : v < 2 ^ 64) : (uint64_of v : ℤ) = v := by
  unfold uint64_of
  rw [Int.emod_eq_of_lt h0 (by exact_mod_cast h1), Int.toNat_of_nonneg h0]

theorem uint64_of_mod (v : ℤ) (w : ℕ) (hw : w ≤ 64) :
    (uint64_of v % 2 ^ w : ℕ) = (v % 2 ^ w).toNat := by
  unfold uint64_of
  have hd : ((2 : ℤ) ^ w) ∣ 2 ^ 64 := pow_dvd_pow 2 hw
  have hnn : 0 ≤ v % 2 ^ 64 := Int.emod_nonneg v (by positivity)
  have hnn2 : 0 ≤ v % 2 ^ w := Int.emod_nonneg v (by positivity)
  have h2 : (((v % 2 ^ 64).toNat % 2 ^ w : ℕ) : ℤ) = (((v % 2 ^ w).toNat : ℕ) : ℤ) := by
    rw [Int.natCast_mod, Int.toNat_of_nonneg hnn, Int.toNat_of_nonneg hnn2,
      Nat.cast_pow, Nat.cast_ofNat]
    exact Int.emod_emod_of_dvd v hd
  exact_mod_cast h2

end SchemaInterp
namespace SchemaInterp

theorem read_u8_of_bytes (B : List ℕ) (pos : ℕ) (v : ℤ) (be : Bool)
    (hB : ∀ k, k < 1 → getByte B (pos + k) = (int_bytes v 1 be).getD k 0) :
    read_u8 B pos = uint64_of v % 2 ^ 8 := by
  have h0 := hB 0 (by norm_num)
  rw [int_bytes_getD _ _ _ _ (by norm_num)] at h0
  unfold read_u8
  rw [show pos + 0 = pos from rfl] at h0
  rw [h0]
  cases be <;> simp

theorem read_u16_be_of_bytes (B : List ℕ) (pos : ℕ) (v : ℤ)
    (hB : ∀ k, k < 2 → getByte B (pos + k) = (int_bytes v 2 true).getD k 0) :
    read_u16_be B pos = uint64_of v % 2 ^ 16 := by
  have h0 := hB 0 (by norm_num)
  have h1 := hB 1 (by norm_num)
  rw [int_bytes_getD _ _ _ _ (by norm_num)] at h0 h1
  simp only [if_pos rfl] at h0 h1
  norm_num at h0 h1
  unfold read_u16_be
  rw [h0, h1]
  omega

theorem read_u16_le_of_bytes (B : List ℕ) (pos : ℕ) (v : ℤ)
    (hB : ∀ k, k < 2 → getByte B (pos + k) = (int_bytes v 2 false).getD k 0) :
    read_u16_le B pos = uint64_of v % 2 ^ 16 := by
  have h0 := hB 0 (by norm_num)
  have h1 := hB 1 (by norm_num)
  rw [int_bytes_getD _ _ _ _ (by norm_num)] at h0 h1
  norm_num at h0 h1
  unfold read_u16_le
  rw [h0, h1]
  omega

theorem read_u24_be_of_bytes (B : List ℕ) (pos : ℕ) (v : ℤ)
    (hB : ∀ k, k < 3 → getByte B (pos + k) = (int_bytes v 3 true).getD k 0) :
    read_u24_be B pos = uint64_of v % 2 ^ 24 := by
  have h0 := hB 0 (by norm_num)
  have h1 := hB 1 (by norm_num)
  have h2 := hB 2 (by norm_num)
  rw [int_bytes_getD _ _ _ _ (by norm_num)] at h0 h1 h2
  norm_num at h0 h1 h2
  unfold read_u24_be
  rw [h0, h1, h2]
  omega

theorem read_u24_le_of_bytes (B : List ℕ) (pos : ℕ) (v : ℤ)
    (hB : ∀ k, k < 3 → getByte B (pos + k) = (int_bytes v 3 false).getD k 0) :
    read_u24_le B pos = uint64_of v % 2 ^ 24 := by
  have h0 := hB 0 (by norm_num)
  have h1 := hB 1 (by norm_num)
  have h2 := hB 2 (by norm_num)
  rw [int_bytes_getD _ _ _ _ (by norm_num)] at h0 h1 h2
  norm_num at h0 h1 h2
  unfold read_u24_le
  rw [h0, h1, h2]
  omega

theorem read_u32_be_of_bytes (B : List ℕ) (pos : ℕ) (v : ℤ)
    (hB : ∀ k, k < 4 → getByte B (pos + k) = (int_bytes v 4 true).getD k 0) :
    read_u32_be B pos = uint64_of v % 2 ^ 32 := by
  have h0 := hB 0 (by norm_num)
  have h1 := hB 1 (by norm_num)
  have h2 := hB 2 (by norm_num)
  have h3 := hB 3 (by norm_num)
  rw [int_bytes_getD _ _ _ _ (by norm_num)] at h0 h1 h2 h3
  norm_num at h0 h1 h2 h3
  unfold read_u32_be
  rw [h0, h1, h2, h3]
  omega

theorem read_u32_le_of_bytes (B : List ℕ) (pos : ℕ) (v : ℤ)
    (hB : ∀ k, k < 4 → getByte B (pos + k) = (int_bytes v 4 false).getD k 0) :
    read_u32_le B pos = uint64_of v % 2 ^ 32 := by
  have h0 := hB 0 (by norm_num)
  have h1 := hB 1 (by norm_num)
  have h2 := hB 2 (by norm_num)
  have h3 := hB 3 (by norm_num)
  rw [int_bytes_getD _ _ _ _ (by norm_num)] at h0 h1 h2 h3
  norm_num at h0 h1 h2 h3
  unfold read_u32_le
  rw [h0, h1, h2, h3]
  omega

theorem read_u64_be_of_bytes (B : List ℕ) (pos : ℕ) (v : ℤ)
    (hB : ∀ k, k < 8 → getByte B (pos + k) = (int_bytes v 8 true).getD k 0) :
    read_u64_be B pos = uint64_of v := by
  have h0 := hB 0 (by norm_num)
  have h1 := hB 1 (by norm_num)
  have h2 := hB 2 (by norm_num)
  have h3 := hB 3 (by norm_num)
  have h4 := hB 4 (by norm_num)
  have h5 := hB 5 (by norm_num)
  have h6 := hB 6 (by norm_num)
  have h7 := hB 7 (by norm_num)
  rw [int_bytes_getD _ _ _ _ (by norm_num)] at h0 h1 h2 h3 h4 h5 h6 h7
  norm_num at h0 h1 h2 h3 h4 h5 h6 h7
  have hu : uint64_of v < 2 ^ 64 := by
    unfold uint64_of
    have := Int.emod_nonneg v (show (2:ℤ)^64 ≠ 0 by positivity)
    have h2 := Int.emod_lt_of_pos v (show (0:ℤ) < 2^64 by positivity)
    omega
  unfold read_u64_be read_u32_be
  rw [show pos + 4 + 1 = pos + 5 by omega, show pos + 4 + 2 = pos + 6 by omega,
    show pos + 4 + 3 = pos + 7 by omega]
  rw [h0, h1, h2, h3, h4, h5, h6, h7]
  omega

theorem read_u64_le_of_bytes (B : List ℕ) (pos : ℕ) (v : ℤ)
    (hB : ∀ k, k < 8 → getByte B (pos + k) = (int_bytes v 8 false).getD k 0) :
    read_u64_le B pos = uint64_of v := by
  have h0 := hB 0 (by norm_num)
  have h1 := hB 1 (by norm_num)
  have h2 := hB 2 (by norm_num)
  have h3 := hB 3 (by norm_num)
  have h4 := hB 4 (by norm_num)
  have h5 := hB 5 (by norm_num)
  have h6 := hB 6 (by norm_num)
  have h7 := hB 7 (by norm_num)
  rw [int_bytes_getD _ _ _ _ (by norm_num)] at h0 h1 h2 h3 h4 h5 h6 h7
  norm_num at h0 h1 h2 h3 h4 h5 h6 h7
  have hu : uint64_of v < 2 ^ 64 := by
    unfold uint64_of
    have := Int.emod_nonneg v (show (2:ℤ)^64 ≠ 0 by positivity)
    have h2 := Int.emod_lt_of_pos v (show (0:ℤ) < 2^64 by positivity)
    omega
  unfold read_u64_le read_u32_le
  rw [show pos + 4 + 1 = pos + 5 by omega, show pos + 4 + 2 = pos + 6 by omega,
    show pos + 4 + 3 = pos + 7 by omega]
  rw [h0, h1, h2, h3, h4, h5, h6, h7]
  omega

end SchemaInterp
namespace SchemaInterp

theorem urec (w : ℕ) (hw : w ≤ 64) (v : ℤ) (h0 : 0 ≤ v) (h1 : v < 2 ^ w) :
    ((uint64_of v % 2 ^ w : ℕ) : ℤ) = v := by
  rw [uint64_of_mod v w hw]
  rw [Int.toNat_of_nonneg (Int.emod_nonneg v (by positivity))]
  exact Int.emod_eq_of_lt h0 h1

end SchemaInterp
namespace SchemaInterp

theorem testBit_div_mod (n k : ℕ) : n.testBit k = true ↔ n / 2 ^ k % 2 = 1 := by
  rw [Nat.testBit_to_div_mod]
  exact decide_eq_true_iff

theorem decode_field_plain (f : field_def) (B : List ℕ) (pos : ℕ)
    (vars : List (String × ℤ)) (de : endian_t) (v : ℤ)
    (hplain : is_plain_int f.type = true)
    (hnm : f.has_mult = false) (hnd : f.has_div = false) (hna : f.has_add = false)
    (hlk : f.lookup = []) (hr : int_in_range f.type v)
    (hlen : pos + width_of f.type ≤ B.length)
    (hB : ∀ k, k < width_of f.type →
      getByte B (pos + k) = (int_bytes v (width_of f.type) (eff_be f de)).getD k 0) :
    ∃ vars', decode_field f B pos vars de =
      ⟨SCHEMA_OK, ⟨f.name, .num ((v : ℚ)), f.type, true⟩, pos + width_of f.type, vars'⟩ := by
  cases hft : f.type
  all_goals try (rw [hft] at hplain; simp [is_plain_int] at hplain)
  case u8 =>
    rw [hft] at hr hlen hB
    simp only [int_in_range] at hr
    obtain ⟨hv0, hv1⟩ := hr
    simp only [width_of] at hlen hB ⊢
    unfold decode_field
    rw [hft]
    dsimp only
    rw [if_neg (by omega)]
    have hread := read_u8_of_bytes B pos v (eff_be f de) hB
    have hraw : ((read_u8 B pos : ℕ) : ℤ) = v := by
      rw [hread]; exact urec 8 (by norm_num) v hv0 hv1
    refine ⟨if f.var_name ≠ "" then
      var_set_c vars f.var_name ((read_u8 B pos : ℕ) : ℤ) else vars, ?_⟩
    unfold finish_int
    rw [if_neg (by simp [hlk])]
    rw [hraw]
    simp [applyMods, hnm, hnd, hna, rnd64_int v (by omega) (by omega)]
  case u16 =>
    rw [hft] at hr hlen hB
    simp only [int_in_range] at hr
    obtain ⟨hv0, hv1⟩ := hr
    simp only [width_of] at hlen hB ⊢
    unfold decode_field
    rw [hft]
    dsimp only
    rw [if_neg (by omega)]
    by_cases hbe : (if f.endian ≠ endian_t.default_e then f.endian else de) = endian_t.big
    · have hBe : eff_be f de = true := by unfold eff_be; exact decide_eq_true hbe
      rw [hBe] at hB
      rw [if_pos hbe]
      have hread := read_u16_be_of_bytes B pos v hB
      have hraw : ((read_u16_be B pos : ℕ) : ℤ) = v := by
        rw [hread]; exact urec 16 (by norm_num) v hv0 hv1
      refine ⟨if f.var_name ≠ "" then
        var_set_c vars f.var_name ((read_u16_be B pos : ℕ) : ℤ) else vars, ?_⟩
      unfold finish_int
      rw [if_neg (by simp [hlk])]
      rw [hraw]
      simp [applyMods, hnm, hnd, hna, rnd64_int v (by omega) (by omega)]
    · have hBe : eff_be f de = false := by unfold eff_be; exact decide_eq_false hbe
      rw [hBe] at hB
      rw [if_neg hbe]
      have hread := read_u16_le_of_bytes B pos v hB
      have hraw : ((read_u16_le B pos : ℕ) : ℤ) = v := by
        rw [hread]; exact urec 16 (by norm_num) v hv0 hv1
      refine ⟨if f.var_name ≠ "" then
        var_set_c vars f.var_name ((read_u16_le B pos : ℕ) : ℤ) else vars, ?_⟩
      unfold finish_int
      rw [if_neg (by simp [hlk])]
      rw [hraw]
      simp [applyMods, hnm, hnd, hna, rnd64_int v (by omega) (by omega)]
  case u24 =>
    rw [hft] at hr hlen hB
    simp only [int_in_range] at hr
    obtain ⟨hv0, hv1⟩ := hr
    simp only [width_of] at hlen hB ⊢
    unfold decode_field
    rw [hft]
    dsimp only
    rw [if_neg (by omega)]
    by_cases hbe : (if f.endian ≠ endian_t.default_e then f.endian else de) = endian_t.big
    · have hBe : eff_be f de = true := by unfold eff_be; exact decide_eq_true hbe
      rw [hBe] at hB
      rw [if_pos hbe]
      have hread := read_u24_be_of_bytes B pos v hB
      have hraw : ((read_u24_be B pos : ℕ) : ℤ) = v := by
        rw [hread]; exact urec 24 (by norm_num) v hv0 hv1
      refine ⟨if f.var_name ≠ "" then
        var_set_c vars f.var_name ((read_u24_be B pos : ℕ) : ℤ) else vars, ?_⟩
      unfold finish_int
      rw [if_neg (by simp [hlk])]
      rw [hraw]
      simp [applyMods, hnm, hnd, hna, rnd64_int v (by omega) (by omega)]
    · have hBe : eff_be f de = false := by unfold eff_be; exact decide_eq_false hbe
      rw [hBe] at hB
      rw [if_neg hbe]
      have hread := read_u24_le_of_bytes B pos v hB
      have hraw : ((read_u24_le B pos : ℕ) : ℤ) = v := by
        rw [hread]; exact urec 24 (by norm_num) v hv0 hv1
      refine ⟨if f.var_name ≠ "" then
        var_set_c vars f.var_name ((read_u24_le B pos : ℕ) : ℤ) else vars, ?_⟩
      unfold finish_int
      rw [if_neg (by simp [hlk])]
      rw [hraw]
      simp [applyMods, hnm, hnd, hna, rnd64_int v (by omega) (by omega)]
  case u32 =>
    rw [hft] at hr hlen hB
    simp only [int_in_range] at hr
    obtain ⟨hv0, hv1⟩ := hr
    simp only [width_of] at hlen hB ⊢
    unfold decode_field
    rw [hft]
    dsimp only
    rw [if_neg (by omega)]
    by_cases hbe : (if f.endian ≠ endian_t.default_e then f.endian else de) = endian_t.big
    · have hBe : eff_be f de = true := by unfold eff_be; exact decide_eq_true hbe
      rw [hBe] at hB
      rw [if_pos hbe]
      have hread := read_u32_be_of_bytes B pos v hB
      have hraw : ((read_u32_be B pos : ℕ) : ℤ) = v := by
        rw [hread]; exact urec 32 (by norm_num) v hv0 hv1
      refine ⟨if f.var_name ≠ "" then
        var_set_c vars f.var_name ((read_u32_be B pos : ℕ) : ℤ) else vars, ?_⟩
      unfold finish_int
      rw [if_neg (by simp [hlk])]
      rw [hraw]
      simp [applyMods, hnm, hnd, hna, rnd64_int v (by omega) (by omega)]
    · have hBe : eff_be f de = false := by unfold eff_be; exact decide_eq_false hbe
      rw [hBe] at hB
      rw [if_neg hbe]
      have hread := read_u32_le_of_bytes B pos v hB
      have hraw : ((read_u32_le B pos : ℕ) : ℤ) = v := by
        rw [hread]; exact urec 32 (by norm_num) v hv0 hv1
      refine ⟨if f.var_name ≠ "" then
        var_set_c vars f.var_name ((read_u32_le B pos : ℕ) : ℤ) else vars, ?_⟩
      unfold finish_int
      rw [if_neg (by simp [hlk])]
      rw [hraw]
      simp [applyMods, hnm, hnd, hna, rnd64_int v (by omega) (by omega)]
  case u64 =>
    rw [hft] at hr hlen hB
    simp only [int_in_range] at hr
    obtain ⟨hv0, hv1⟩ := hr
    simp only [width_of] at hlen hB ⊢
    unfold decode_field
    rw [hft]
    dsimp only
    rw [if_neg (by omega)]
    have hz : (uint64_of v : ℤ) = v := uint64_of_int v hv0 (by omega)
    by_cases hbe : (if f.endian ≠ endian_t.default_e then f.endian else de) = endian_t.big
    · have hBe : eff_be f de = true := by unfold eff_be; exact decide_eq_true hbe
      rw [hBe] at hB
      rw [if_pos hbe]
      have hread := read_u64_be_of_bytes B pos v hB
      have hq : ((read_u64_be B pos : ℕ) : ℚ) = ((v : ℤ) : ℚ) := by
        rw [hread]; exact_mod_cast congrArg (fun z : ℤ => (z : ℚ)) hz
      refine ⟨if f.var_name ≠ "" then
        var_set_c vars f.var_name (toInt64 (read_u64_be B pos)) else vars, ?_⟩
      rw [hq]
      simp [applyMods, hnm, hnd, hna, rnd64_int v (by omega) (by omega)]
    · have hBe : eff_be f de = false := by unfold eff_be; exact decide_eq_false hbe
      rw [hBe] at hB
      rw [if_neg hbe]
      have hread := read_u64_le_of_bytes B pos v hB
      have hq : ((read_u64_le B pos : ℕ) : ℚ) = ((v : ℤ) : ℚ) := by
        rw [hread]; exact_mod_cast congrArg (fun z : ℤ => (z : ℚ)) hz
      refine ⟨if f.var_name ≠ "" then
        var_set_c vars f.var_name (toInt64 (read_u64_le B pos)) else vars, ?_⟩
      rw [hq]
      simp [applyMods, hnm, hnd, hna, rnd64_int v (by omega) (by omega)]
  case s8 =>
    rw [hft] at hr hlen hB
    simp only [int_in_range] at hr
    obtain ⟨hv0, hv1⟩ := hr
    simp only [width_of] at hlen hB ⊢
    unfold decode_field
    rw [hft]
    dsimp only
    rw [if_neg (by omega)]
    have hread := read_u8_of_bytes B pos v (eff_be f de) hB
    have hraw : read_s8 B pos = v := by
      unfold read_s8
      rw [hread, uint64_of_mod v 8 (by norm_num)]
      unfold toSigned
      split <;> omega
    refine ⟨if f.var_name ≠ "" then
      var_set_c vars f.var_name (read_s8 B pos) else vars, ?_⟩
    unfold finish_int
    rw [if_neg (by simp [hlk])]
    rw [hraw]
    simp [applyMods, hnm, hnd, hna, rnd64_int v (by omega) (by omega)]
  case s16 =>
    rw [hft] at hr hlen hB
    simp only [int_in_range] at hr
    obtain ⟨hv0, hv1⟩ := hr
    simp only [width_of] at hlen hB ⊢
    unfold decode_field
    rw [hft]
    dsimp only
    rw [if_neg (by omega)]
    by_cases hbe : (if f.endian ≠ endian_t.default_e then f.endian else de) = endian_t.big
    · have hBe : eff_be f de = true := by unfold eff_be; exact decide_eq_true hbe
      rw [hBe] at hB
      rw [if_pos hbe]
      have hread := read_u16_be_of_bytes B pos v hB
      have hraw : read_s16_be B pos = v := by
        unfold read_s16_be
        rw [hread, uint64_of_mod v 16 (by norm_num)]
        unfold toSigned
        split <;> omega
      refine ⟨if f.var_name ≠ "" then
        var_set_c vars f.var_name (read_s16_be B pos) else vars, ?_⟩
      unfold finish_int
      rw [if_neg (by simp [hlk])]
      rw [hraw]
      simp [applyMods, hnm, hnd, hna, rnd64_int v (by omega) (by omega)]
    · have hBe : eff_be f de = false := by unfold eff_be; exact decide_eq_false hbe
      rw [hBe] at hB
      rw [if_neg hbe]
      have hread := read_u16_le_of_bytes B pos v hB
      have hraw : read_s16_le B pos = v := by
        unfold read_s16_le
        rw [hread, uint64_of_mod v 16 (by norm_num)]
        unfold toSigned
        split <;> omega
      refine ⟨if f.var_name ≠ "" then
        var_set_c vars f.var_name (read_s16_le B pos) else vars, ?_⟩
      unfold finish_int
      rw [if_neg (by simp [hlk])]
      rw [hraw]
      simp [applyMods, hnm, hnd, hna, rnd64_int v (by omega) (by omega)]
  case s24 =>
    rw [hft] at hr hlen hB
    simp only [int_in_range] at hr
    obtain ⟨hv0, hv1⟩ := hr
    simp only [width_of] at hlen hB ⊢
    unfold decode_field
    rw [hft]
    dsimp only
    rw [if_neg (by omega)]
    by_cases hbe : (if f.endian ≠ endian_t.default_e then f.endian else de) = endian_t.big
    · have hBe : eff_be f de = true := by unfold eff_be; exact decide_eq_true hbe
      rw [hBe] at hB
      rw [if_pos hbe]
      have hread := read_u24_be_of_bytes B pos v hB
      have hraw : read_s24_be B pos = v := by
        rw [read_s24_be_spec, hread, uint64_of_mod v 24 (by norm_num)]
        by_cases hb : ((v % 2 ^ 24).toNat).testBit 23
        · rw [if_pos hb]
          have hb2 := (testBit_div_mod _ 23).mp hb
          omega
        · rw [if_neg hb]
          have hb2 : ¬ ((v % 2 ^ 24).toNat / 2 ^ 23 % 2 = 1) :=
            fun hc => hb ((testBit_div_mod _ 23).mpr hc)
          omega
      refine ⟨if f.var_name ≠ "" then
        var_set_c vars f.var_name (read_s24_be B pos) else vars, ?_⟩
      unfold finish_int
      rw [if_neg (by simp [hlk])]
      rw [hraw]
      simp [applyMods, hnm, hnd, hna, rnd64_int v (by omega) (by omega)]
    · have hBe : eff_be f de = false := by unfold eff_be; exact decide_eq_false hbe
      rw [hBe] at hB
      rw [if_neg hbe]
      have hread := read_u24_le_of_bytes B pos v hB
      have hraw : read_s24_le B pos = v := by
        rw [read_s24_le_spec, hread, uint64_of_mod v 24 (by norm_num)]
        by_cases hb : ((v % 2 ^ 24).toNat).testBit 23
        · rw [if_pos hb]
          have hb2 := (testBit_div_mod _ 23).mp hb
          omega
        · rw [if_neg hb]
          have hb2 : ¬ ((v % 2 ^ 24).toNat / 2 ^ 23 % 2 = 1) :=
            fun hc => hb ((testBit_div_mod _ 23).mpr hc)
          omega
      refine ⟨if f.var_name ≠ "" then
        var_set_c vars f.var_name (read_s24_le B pos) else vars, ?_⟩
      unfold finish_int
      rw [if_neg (by simp [hlk])]
      rw [hraw]
      simp [applyMods, hnm, hnd, hna, rnd64_int v (by omega) (by omega)]
  case s32 =>
    rw [hft] at hr hlen hB
    simp only [int_in_range] at hr
    obtain ⟨hv0, hv1⟩ := hr
    simp only [width_of] at hlen hB ⊢
    unfold decode_field
    rw [hft]
    dsimp only
    rw [if_neg (by omega)]
    by_cases hbe : (if f.endian ≠ endian_t.default_e then f.endian else de) = endian_t.big
    · have hBe : eff_be f de = true := by unfold eff_be; exact decide_eq_true hbe
      rw [hBe] at hB
      rw [if_pos hbe]
      have hread := read_u32_be_of_bytes B pos v hB
      have hraw : read_s32_be B pos = v := by
        unfold read_s32_be
        rw [hread, uint64_of_mod v 32 (by norm_num)]
        unfold toSigned
        split <;> omega
      refine ⟨if f.var_name ≠ "" then
        var_set_c vars f.var_name (read_s32_be B pos) else vars, ?_⟩
      unfold finish_int
      rw [if_neg (by simp [hlk])]
      rw [hraw]
      simp [applyMods, hnm, hnd, hna, rnd64_int v (by omega) (by omega)]
    · have hBe : eff_be f de = false := by unfold eff_be; exact decide_eq_false hbe
      rw [hBe] at hB
      rw [if_neg hbe]
      have hread := read_u32_le_of_bytes B pos v hB
      have hraw : read_s32_le B pos = v := by
        unfold read_s32_le
        rw [hread, uint64_of_mod v 32 (by norm_num)]
        unfold toSigned
        split <;> omega
      refine ⟨if f.var_name ≠ "" then
        var_set_c vars f.var_name (read_s32_le B pos) else vars, ?_⟩
      unfold finish_int
      rw [if_neg (by simp [hlk])]
      rw [hraw]
      simp [applyMods, hnm, hnd, hna, rnd64_int v (by omega) (by omega)]
  case s64 =>
    rw [hft] at hr hlen hB
    simp only [int_in_range] at hr
    obtain ⟨hv0, hv1⟩ := hr
    simp only [width_of] at hlen hB ⊢
    unfold decode_field
    rw [hft]
    dsimp only
    rw [if_neg (by omega)]
    by_cases hbe : (if f.endian ≠ endian_t.default_e then f.endian else de) = endian_t.big
    · have hBe : eff_be f de = true := by unfold eff_be; exact decide_eq_true hbe
      rw [hBe] at hB
      rw [if_pos hbe]
      have hread := read_u64_be_of_bytes B pos v hB
      have hraw : read_s64_be B pos = v := by
        unfold read_s64_be
        rw [hread]
        unfold toSigned uint64_of
        split <;> omega
      refine ⟨if f.var_name ≠ "" then
        var_set_c vars f.var_name (read_s64_be B pos) else vars, ?_⟩
      unfold finish_int
      rw [if_neg (by simp [hlk])]
      rw [hraw]
      simp [applyMods, hnm, hnd, hna, rnd64_int v (by omega) (by omega)]
    · have hBe : eff_be f de = false := by unfold eff_be; exact decide_eq_false hbe
      rw [hBe] at hB
      rw [if_neg hbe]
      have hread := read_u64_le_of_bytes B pos v hB
      have hraw : read_s64_le B pos = v := by
        unfold read_s64_le
        rw [hread]
        unfold toSigned uint64_of
        split <;> omega
      refine ⟨if f.var_name ≠ "" then
        var_set_c vars f.var_name (read_s64_le B pos) else vars, ?_⟩
      unfold finish_int
      rw [if_neg (by simp [hlk])]
      rw [hraw]
      simp [applyMods, hnm, hnd, hna, rnd64_int v (by omega) (by omega)]

end SchemaInterp
namespace SchemaInterp

theorem encode_field_plain (f : field_def) (inputs : List (String × ℚ)) (buf : List ℕ)
    (pos : ℕ) (se : endian_t) (v : ℚ)
    (hplain : is_plain_int f.type = true)
    (hnm : f.has_mult = false) (hnd : f.has_div = false) (hna : f.has_add = false)
    (hin : find_input inputs f.name = some v) :
    encode_field f inputs buf pos se =
      ⟨SCHEMA_OK,
        writeBytes buf pos (int_bytes (encode_round v) (width_of f.type) (eff_be f se)),
        pos + width_of f.type⟩ := by
  cases hft : f.type
  all_goals try (rw [hft] at hplain; simp [is_plain_int] at hplain)
  case u8 =>
    unfold encode_field
    rw [hin]
    dsimp only
    rw [if_neg (by simp)]
    rw [hft]
    dsimp only
    simp only [hna, hnd, hnm, Bool.false_eq_true, false_and, if_false]
    simp only [Option.getD_some]
    have hb : (encode_round v % 256).toNat = uint64_of (encode_round v) % 2 ^ 8 := by
      have h8 := uint64_of_mod (encode_round v) 8 (by norm_num)
      norm_num at h8 ⊢
      omega
    simp only [width_of, int_bytes, List.range_succ, List.range_zero, List.map_append,
      List.map_cons, List.map_nil, List.nil_append, writeBytes]
    rw [hb]
    norm_num
  case s8 =>
    unfold encode_field
    rw [hin]
    dsimp only
    rw [if_neg (by simp)]
    rw [hft]
    dsimp only
    simp only [hna, hnd, hnm, Bool.false_eq_true, false_and, if_false]
    simp only [Option.getD_some]
    have hb : (encode_round v % 256).toNat = uint64_of (encode_round v) % 2 ^ 8 := by
      have h8 := uint64_of_mod (encode_round v) 8 (by norm_num)
      norm_num at h8 ⊢
      omega
    simp only [width_of, int_bytes, List.range_succ, List.range_zero, List.map_append,
      List.map_cons, List.map_nil, List.nil_append, writeBytes]
    rw [hb]
    norm_num
  case u16 =>
    unfold encode_field
    rw [hin]
    dsimp only
    rw [if_neg (by simp)]
    rw [hft]
    dsimp only
    simp only [hna, hnd, hnm, Bool.false_eq_true, false_and, if_false]
    simp only [Option.getD_some, width_of, write_int, eff_be]
  case s16 =>
    unfold encode_field
    rw [hin]
    dsimp only
    rw [if_neg (by simp)]
    rw [hft]
    dsimp only
    simp only [hna, hnd, hnm, Bool.false_eq_true, false_and, if_false]
    simp only [Option.getD_some, width_of, write_int, eff_be]
  case u24 =>
    unfold encode_field
    rw [hin]
    dsimp only
    rw [if_neg (by simp)]
    rw [hft]
    dsimp only
    simp only [hna, hnd, hnm, Bool.false_eq_true, false_and, if_false]
    simp only [Option.getD_some, width_of, write_int, eff_be]
  case s24 =>
    unfold encode_field
    rw [hin]
    dsimp only
    rw [if_neg (by simp)]
    rw [hft]
    dsimp only
    simp only [hna, hnd, hnm, Bool.false_eq_true, false_and, if_false]
    simp only [Option.getD_some, width_of, write_int, eff_be]
  case u32 =>
    unfold encode_field
    rw [hin]
    dsimp only
    rw [if_neg (by simp)]
    rw [hft]
    dsimp only
    simp only [hna, hnd, hnm, Bool.false_eq_true, false_and, if_false]
    simp only [Option.getD_some, width_of, write_int, eff_be]
  case s32 =>
    unfold encode_field
    rw [hin]
    dsimp only
    rw [if_neg (by simp)]
    rw [hft]
    dsimp only
    simp only [hna, hnd, hnm, Bool.false_eq_true, false_and, if_false]
    simp only [Option.getD_some, width_of, write_int, eff_be]
  case u64 =>
    unfold encode_field
    rw [hin]
    dsimp only
    rw [if_neg (by simp)]
    rw [hft]
    dsimp only
    simp only [hna, hnd, hnm, Bool.false_eq_true, false_and, if_false]
    simp only [Option.getD_some, width_of, write_int, eff_be]
  case s64 =>
    unfold encode_field
    rw [hin]
    dsimp only
    rw [if_neg (by simp)]
    rw [hft]
    dsimp only
    simp only [hna, hnd, hnm, Bool.false_eq_true, false_and, if_false]
    simp only [Option.getD_some, width_of, write_int, eff_be]

end SchemaInterp
namespace SchemaInterp

theorem widthSum_nil : widthSum [] = 0 := rfl

theorem widthSum_cons (f : field_def) (fs : List field_def) :
    widthSum (f :: fs) = width_of f.type + widthSum fs := by
  simp [widthSum]

theorem plain_bytes_length (f : field_def) (inputs : List (String × ℚ)) (se : endian_t) :
    (plain_bytes f inputs se).length = width_of f.type :=
  int_bytes_length _ _ _

theorem plain_bytes_all_nil (inputs : List (String × ℚ)) (se : endian_t) :
    plain_bytes_all [] inputs se = [] := rfl

theorem plain_bytes_all_cons (f : field_def) (fs : List field_def)
    (inputs : List (String × ℚ)) (se : endian_t) :
    plain_bytes_all (f :: fs) inputs se =
      plain_bytes f inputs se ++ plain_bytes_all fs inputs se := by
  simp [plain_bytes_all]

theorem plain_bytes_all_length (fs : List field_def) (inputs : List (String × ℚ))
    (se : endian_t) : (plain_bytes_all fs inputs se).length = widthSum fs := by
  induction fs with
  | nil => rfl
  | cons f fs ih =>
      rw [plain_bytes_all_cons, List.length_append, ih, plain_bytes_length, widthSum_cons]

theorem plain_bytes_all_getD_lt (fs : List field_def) (inputs : List (String × ℚ))
    (se : endian_t) (k : ℕ) : (plain_bytes_all fs inputs se).getD k 0 < 256 := by
  induction fs generalizing k with
  | nil => simp [plain_bytes_all_nil]
  | cons f fs ih =>
      rw [plain_bytes_all_cons]
      by_cases hk : k < (plain_bytes f inputs se).length
      · rw [List.getD_append _ _ _ _ hk]
        exact int_bytes_getD_lt _ _ _ _
      · rw [List.getD_append_right _ _ _ _ (Nat.le_of_not_lt hk)]
        exact ih _

theorem plain_ne_tmatch (t : field_type) (h : is_plain_int t = true) :
    t ≠ field_type.tmatch := by
  cases t <;> simp [is_plain_int] at h ⊢

theorem drop_getD {l : List field_def} {i : ℕ} {f : field_def} {fs : List field_def}
    (h : l.drop i = f :: fs) : l.getD i field_zero = f := by
  have h0 : l[i]? = some f := by
    have := List.getElem?_drop l i 0
    rw [h] at this
    simpa using this.symm
  rw [List.getD_eq_getElem?_getD, h0]
  rfl

theorem drop_succ {l : List field_def} {i : ℕ} {f : field_def} {fs : List field_def}
    (h : l.drop i = f :: fs) : l.drop (i + 1) = fs := by
  have h2 : l.drop (i + 1) = (l.drop i).drop 1 := (List.drop_drop 1 i l).symm
  rw [h2, h]
  rfl

theorem writeBytes_writeBytes_of_len (bs cs buf : List ℕ) (pos w : ℕ)
    (hw : bs.length = w) :
    writeBytes (writeBytes buf pos bs) (pos + w) cs = writeBytes buf pos (bs ++ cs) := by
  subst hw
  exact writeBytes_writeBytes bs cs buf pos

theorem encode_loop_plain (S : schema_t) (inputs : List (String × ℚ)) :
    ∀ (fs : List field_def) (i : ℕ) (buf : List ℕ) (pos : ℕ),
      S.fields.drop i = fs →
      (∀ f ∈ fs, plain_int_field f) →
      (∀ f ∈ fs, input_int_ok inputs f) →
      encode_loop S inputs fs.length i buf pos =
        (SCHEMA_OK, writeBytes buf pos (plain_bytes_all fs inputs S.endian),
          pos + widthSum fs) := by
  intro fs
  induction fs with
  | nil =>
      intro i buf pos _ _ _
      simp [encode_loop, plain_bytes_all_nil, writeBytes, widthSum_nil]
  | cons f fs ih =>
      intro i buf pos hdrop hplain hin
      have hf := drop_getD hdrop
      have hpf := hplain f (List.mem_cons_self f fs)
      have hif := hin f (List.mem_cons_self f fs)
      obtain ⟨hpt, hm, hd, ha, hlk, hne, hnu⟩ := hpf
      obtain ⟨hfind, hden, hrange⟩ := hif
      rw [show (f :: fs).length = fs.length + 1 from rfl, encode_loop, hf]
      rw [if_neg (by
        push_neg
        exact ⟨hnu, plain_ne_tmatch f.type hpt⟩)]
      dsimp only
      rw [encode_field_plain f inputs buf pos S.endian (input_q inputs f.name)
        hpt hm hd ha hfind]
      rw [if_neg (by simp [SCHEMA_OK])]
      rw [ih (i + 1) _ _ (drop_succ hdrop)
        (fun g hg => hplain g (List.mem_cons_of_mem f hg))
        (fun g hg => hin g (List.mem_cons_of_mem f hg))]
      rw [plain_bytes_all_cons]
      rw [widthSum_cons]
      rw [writeBytes_writeBytes_of_len _ _ _ _ _ (int_bytes_length _ _ _)]
      simp only [Prod.mk.injEq]
      exact ⟨trivial, rfl, by omega⟩

end SchemaInterp
namespace SchemaInterp

theorem decode_loop_plain (S : schema_t) (B : List ℕ) (inputs : List (String × ℚ)) :
    ∀ (fs : List field_def) (i pos : ℕ) (vars : List (String × ℤ))
      (acc : List decoded_field),
      S.fields.drop i = fs →
      (∀ f ∈ fs, plain_int_field f) →
      (∀ f ∈ fs, input_int_ok inputs f) →
      pos + widthSum fs ≤ B.length →
      (∀ k, k < widthSum fs →
        getByte B (pos + k) = (plain_bytes_all fs inputs S.endian).getD k 0) →
      schema_decode_go S B fs.length i pos vars acc =
        ⟨acc ++ fs.map (fun f => plain_out f inputs), pos + widthSum fs, SCHEMA_OK⟩ := by
  intro fs
  induction fs with
  | nil =>
      intro i pos vars acc _ _ _ _ _
      simp [schema_decode_go, widthSum_nil]
  | cons f fs ih =>
      intro i pos vars acc hdrop hplain hin hlen hB
      have hf := drop_getD hdrop
      obtain ⟨hpt, hm, hd, ha, hlk, hne, hnu⟩ := hplain f (List.mem_cons_self f fs)
      obtain ⟨hfind, hden, hrange⟩ := hin f (List.mem_cons_self f fs)
      have hwq : (((input_q inputs f.name).num : ℤ) : ℚ) = input_q inputs f.name :=
        Rat.coe_int_num_of_den_eq_one hden
      have hsmall := int_in_range_small f.type (input_q inputs f.name).num hpt hrange
      have henc : encode_round (input_q inputs f.name) = (input_q inputs f.name).num := by
        conv_lhs => rw [← hwq]
        exact encode_round_int_small _ hsmall.1 hsmall.2
      rw [show (f :: fs).length = fs.length + 1 from rfl, schema_decode_go, hf]
      rw [if_neg (plain_ne_tmatch f.type hpt)]
      dsimp only
      have hB1 : ∀ k, k < width_of f.type →
          getByte B (pos + k) =
            (int_bytes (input_q inputs f.name).num (width_of f.type)
              (eff_be f S.endian)).getD k 0 := by
        intro k hk
        have hks : k < widthSum (f :: fs) := by rw [widthSum_cons]; omega
        rw [hB k hks, plain_bytes_all_cons,
          List.getD_append _ _ _ _ (by rw [plain_bytes_length]; exact hk)]
        unfold plain_bytes
        rw [henc]
      obtain ⟨vars2, hdf⟩ := decode_field_plain f B pos vars S.endian
        (input_q inputs f.name).num hpt hm hd ha hlk hrange
        (by rw [widthSum_cons] at hlen; omega) hB1
      rw [hdf]
      rw [if_neg (by simp [SCHEMA_OK])]
      dsimp only
      have hemit : emit_regular f
          ⟨f.name, .num (((input_q inputs f.name).num : ℚ)), f.type, true⟩ = true := by
        unfold emit_regular
        simp [hne, hnu]
      rw [if_pos hemit]
      have hBtail : ∀ k, k < widthSum fs →
          getByte B (pos + width_of f.type + k) =
            (plain_bytes_all fs inputs S.endian).getD k 0 := by
        intro k hk
        have hks : width_of f.type + k < widthSum (f :: fs) := by rw [widthSum_cons]; omega
        have hkk := hB (width_of f.type + k) hks
        rw [show pos + (width_of f.type + k) = pos + width_of f.type + k by omega] at hkk
        rw [hkk, plain_bytes_all_cons,
          List.getD_append_right _ _ _ _ (by rw [plain_bytes_length]; omega)]
        rw [plain_bytes_length]
        congr 1
        omega
      rw [ih (i + 1) (pos + width_of f.type) vars2 _ (drop_succ hdrop)
        (fun g hg => hplain g (List.mem_cons_of_mem f hg))
        (fun g hg => hin g (List.mem_cons_of_mem f hg))
        (by rw [widthSum_cons] at hlen; omega) hBtail]
      simp only [decode_result.mk.injEq]
      refine ⟨?_, by rw [widthSum_cons]; omega, trivial⟩
      rw [List.map_cons, List.append_assoc]
      congr 2
      simp [plain_out, hwq]

end SchemaInterp
namespace SchemaInterp

theorem schema_encode_plain (S : schema_t) (inputs : List (String × ℚ))
    (h1 : ∀ f ∈ S.fields, plain_int_field f)
    (h2 : ∀ f ∈ S.fields, input_int_ok inputs f) :
    schema_encode S inputs =
      ⟨writeBytes (List.replicate 256 0) 0 (plain_bytes_all S.fields inputs S.endian),
        widthSum S.fields, SCHEMA_OK⟩ := by
  have henc := encode_loop_plain S inputs S.fields 0 (List.replicate 256 0) 0
    (by simp) h1 h2
  unfold schema_encode
  rw [henc]
  rw [if_neg (by simp [SCHEMA_OK])]
  simp only [Nat.zero_add]

theorem roundtrip_plain_universal :
    (∀ (S : schema_t) (inputs : List (String × ℚ)),
        (∀ f ∈ S.fields, plain_int_field f) →
        (∀ f ∈ S.fields, input_int_ok inputs f) →
        widthSum S.fields ≤ 256 →
        (schema_encode S inputs).error_code = SCHEMA_OK ∧
        (schema_encode S inputs).len = widthSum S.fields ∧
        (schema_encode S inputs).data.take (schema_encode S inputs).len =
          plain_bytes_all S.fields inputs S.endian ∧
        schema_decode S ((schema_encode S inputs).data.take (schema_encode S inputs).len) =
          ⟨S.fields.map (fun f => plain_out f inputs), widthSum S.fields, SCHEMA_OK⟩) := by
  intro S inputs h1 h2 hW
  have hSE := schema_encode_plain S inputs h1 h2
  have hBlen := plain_bytes_all_length S.fields inputs S.endian
  have htake : (schema_encode S inputs).data.take (schema_encode S inputs).len =
      plain_bytes_all S.fields inputs S.endian := by
    rw [hSE]
    dsimp only
    conv_lhs => rw [← hBlen]
    exact take_writeBytes _ _ (by rw [hBlen, List.length_replicate]; exact hW)
  refine ⟨by rw [hSE], by rw [hSE], htake, ?_⟩
  rw [htake]
  unfold schema_decode
  have hinv : ∀ k, k < widthSum S.fields →
      getByte (plain_bytes_all S.fields inputs S.endian) (0 + k) =
        (plain_bytes_all S.fields inputs S.endian).getD k 0 := by
    intro k _
    unfold getByte
    rw [Nat.zero_add]
    exact Nat.mod_eq_of_lt (plain_bytes_all_getD_lt S.fields inputs S.endian k)
  have hd := decode_loop_plain S (plain_bytes_all S.fields inputs S.endian) inputs
    S.fields 0 0 [] [] (by simp) h1 h2 (by rw [hBlen]; omega) hinv
  rw [hd]
  simp only [List.nil_append, Nat.zero_add]

end SchemaInterp

namespace SchemaInterp

set_option maxRecDepth 10000

attribute [local semireducible] Rat.mul Rat.ofScientific Rat.add Rat.sub Rat.inv

/-- C1 counterexample: the round trip is not exact over the full declared
width of the 8-byte integer types, refuting the claim as stated.  For the
single-field plain `u64` schema and the input `x = 2^52 + 1` — an
unmodified integer expressible in the declared width and exactly
representable as a C `double` — encoding succeeds, but the encoder's
`raw_val + 0.5` binary64 addition rounds ties-to-even to `2^52 + 2`, so
the emitted bytes hold `2^52 + 2` and decoding them yields
`2^52 + 2 ≠ 2^52 + 1`: the input map is not recovered. -/
theorem C1_counterexample :
    find_input c1CxInputs "x" = some ((4503599627370497 : ℚ)) ∧
    ((4503599627370497 : ℚ)).den = 1 ∧
    (0 : ℤ) ≤ 4503599627370497 ∧ (4503599627370497 : ℤ) < 2 ^ 64 ∧
    (∀ f ∈ c1CxSchema.fields, plain_int_field f) ∧
    (schema_encode c1CxSchema c1CxInputs).error_code = SCHEMA_OK ∧
    (schema_encode c1CxSchema c1CxInputs).len = 8 ∧
    schema_decode c1CxSchema
        ((schema_encode c1CxSchema c1CxInputs).data.take
          (schema_encode c1CxSchema c1CxInputs).len) =
      ⟨[⟨"x", .num ((4503599627370498 : ℚ)), .u64, true⟩], 8, SCHEMA_OK⟩ ∧
    ((4503599627370498 : ℚ)) ≠ ((4503599627370497 : ℚ)) :=
  ⟨by decide, by decide, by decide, by decide, by decide, by decide, by decide,
    by decide, by decide⟩

/-- C1 (amended): encode/decode round trip on the exactly-carried domain.
Universal part: for every schema of plain integer fields (no modifiers,
no lookup, emittable names) and every input map holding, for each field,
an integer expressible in the declared width — capped at magnitude 2^52
for the 8-byte types, the region where the C double pipeline is exact;
beyond it the counterexample above applies — encoding succeeds, produces
exactly the per-field byte images, and decoding those bytes recovers
every input value exactly, in schema order.  Concrete part (scenarios 1
and 5): the env-sensor schema with inputs
`{temperature: 23.45, humidity: 65, battery: 3300, status: 0}` encodes to
exactly `09 29 82 0C E4 00`, and decoding those bytes recovers exactly
the input map (the modifier chains `×0.01` and `×0.5` invert without
error on these values). -/
theorem C1_encode_decode_roundtrip :
    (∀ (S : schema_t) (inputs : List (String × ℚ)),
        (∀ f ∈ S.fields, plain_int_field f) →
        (∀ f ∈ S.fields, input_int_ok inputs f) →
        widthSum S.fields ≤ 256 →
        (schema_encode S inputs).error_code = SCHEMA_OK ∧
        (schema_encode S inputs).len = widthSum S.fields ∧
        (schema_encode S inputs).data.take (schema_encode S inputs).len =
          plain_bytes_all S.fields inputs S.endian ∧
        schema_decode S ((schema_encode S inputs).data.take (schema_encode S inputs).len) =
          ⟨S.fields.map (fun f => plain_out f inputs), widthSum S.fields, SCHEMA_OK⟩) ∧
    schema_encode envSchema envInputs =
      ⟨[0x09, 0x29, 0x82, 0x0C, 0xE4, 0x00] ++ List.replicate 250 0, 6, SCHEMA_OK⟩ ∧
    (schema_encode envSchema envInputs).data.take (schema_encode envSchema envInputs).len =
      [0x09, 0x29, 0x82, 0x0C, 0xE4, 0x00] ∧
    schema_decode envSchema [0x09, 0x29, 0x82, 0x0C, 0xE4, 0x00] =
      ⟨envSchema.fields.map (fun f => plain_out f envInputs), 6, SCHEMA_OK⟩ ∧
    envSchema.fields.map (fun f => plain_out f envInputs) =
      [⟨"temperature", .num 23.45, .s16, true⟩, ⟨"humidity", .num 65, .u8, true⟩,
       ⟨"battery", .num 3300, .u16, true⟩, ⟨"status", .num 0, .u8, true⟩] :=
  ⟨roundtrip_plain_universal, by decide, by decide, by decide, by decide⟩

theorem C1_encode_decode_roundtrip_witness :
    (∀ f ∈ abSchema.fields, plain_int_field f) ∧
    (∀ f ∈ abSchema.fields,
        input_int_ok [(("a" : String), (7 : ℚ)), (("b" : String), (70000 : ℚ))] f) ∧
    widthSum abSchema.fields ≤ 256 ∧
    ((schema_encode abSchema
        [(("a" : String), (7 : ℚ)), (("b" : String), (70000 : ℚ))]).error_code = SCHEMA_OK ∧
      (schema_encode abSchema
        [(("a" : String), (7 : ℚ)), (("b" : String), (70000 : ℚ))]).len =
        widthSum abSchema.fields ∧
      (schema_encode abSchema
        [(("a" : String), (7 : ℚ)), (("b" : String), (70000 : ℚ))]).data.take
          (schema_encode abSchema
            [(("a" : String), (7 : ℚ)), (("b" : String), (70000 : ℚ))]).len =
        plain_bytes_all abSchema.fields
          [(("a" : String), (7 : ℚ)), (("b" : String), (70000 : ℚ))] abSchema.endian ∧
      schema_decode abSchema
          ((schema_encode abSchema
            [(("a" : String), (7 : ℚ)), (("b" : String), (70000 : ℚ))]).data.take
            (schema_encode abSchema
              [(("a" : String), (7 : ℚ)), (("b" : String), (70000 : ℚ))]).len) =
        ⟨abSchema.fields.map (fun f => plain_out f
            [(("a" : String), (7 : ℚ)), (("b" : String), (70000 : ℚ))]),
          widthSum abSchema.fields, SCHEMA_OK⟩) :=
  ⟨by decide, by decide, by decide,
    C1_encode_decode_roundtrip.1 abSchema
      [(("a" : String), (7 : ℚ)), (("b" : String), (70000 : ℚ))]
      (by decide) (by decide) (by decide)⟩

end SchemaInterp
